import Mathlib

/-!
Verification development for the overlaybd repository: a shallow embedding of
the LSMT interval-index algebra, the full-file cache pool, the image-service
URL/credential helpers and the switch-file state machine, with theorems
checking the natural-language specification against the code.
-/

set_option linter.unusedVariables false

namespace LSMT

/-- A `SegmentMapping` as in the LSMT index: a logical extent
`[offset, offset+length)` mapped to physical offset `moffset`, with a
`zeroed` flag and a `tag` identifying the source layer.
Modelled from the spec: the index implementation (`lsmt/index.cpp`) is not
under `src/`; the data model follows spec section 3 and the uses in
`src/overlaybd/lsmt/test/test.cpp`. -/
structure SegmentMapping where
  offset : Nat
  length : Nat
  moffset : Nat
  zeroed : Bool := false
  tag : Nat := 0
deriving DecidableEq, Repr

/-- A logical segment `[offset, offset+length)`. -/
structure Segment where
  offset : Nat
  length : Nat
deriving DecidableEq, Repr

/-- `end()` of a mapping: one past its last logical address. -/
def SegmentMapping.endOff (m : SegmentMapping) : Nat := m.offset + m.length

/-- The mapping covers logical point `p`. -/
def covers (m : SegmentMapping) (p : Nat) : Prop :=
  m.offset ≤ p ∧ p < m.offset + m.length

instance (m : SegmentMapping) (p : Nat) : Decidable (covers m p) := by
  unfold covers; infer_instance

/-- Sorted strict non-overlap relation between two mappings. -/
def before (a b : SegmentMapping) : Prop := a.offset + a.length ≤ b.offset

instance (a b : SegmentMapping) : Decidable (before a b) := by
  unfold before; infer_instance

/-- The sorted-non-overlap invariant of an index: every pair of entries, in
list order, satisfies `a.end() ≤ b.offset`. -/
def SortedNO (l : List SegmentMapping) : Prop := l.Pairwise before

/-- First entry of the index covering point `p` (the unique one when the
index satisfies `SortedNO`). -/
def lookupAt (l : List SegmentMapping) (p : Nat) : Option SegmentMapping :=
  l.find? fun m => decide (covers m p)

/-- The logical content a mapping assigns to point `p`: physical location
(for zeroed extents the unshifted `moffset`), the `zeroed` flag, and the
`tag`. -/
def valueAt (m : SegmentMapping) (p : Nat) : Nat × Bool × Nat :=
  (if m.zeroed then m.moffset else m.moffset + (p - m.offset), m.zeroed, m.tag)

/-- The logical content an index assigns to point `p`; `none` when `p` is a
hole. -/
def readAt (l : List SegmentMapping) (p : Nat) : Option (Nat × Bool × Nat) :=
  (lookupAt l p).map fun m => valueAt m p

/-- Left remainder of an existing entry `e` whose tail is overwritten by a
new mapping starting at `m.offset`: same start and `moffset`, trimmed
length. -/
def leftPiece (m e : SegmentMapping) : SegmentMapping :=
  { e with length := m.offset - e.offset }

/-- Right remainder of an existing entry `e` whose head is overwritten by a
new mapping ending at `m.end()`: starts at `m.end()`, with `moffset` shifted
by the consumed head (unshifted for zeroed extents). -/
def rightPiece (m e : SegmentMapping) : SegmentMapping :=
  { offset := m.offset + m.length,
    length := e.offset + e.length - (m.offset + m.length),
    moffset := if e.zeroed then e.moffset
               else e.moffset + (m.offset + m.length - e.offset),
    zeroed := e.zeroed, tag := e.tag }

/-- `Index0::insert` on a sorted list of mappings.
Modelled from the spec: `Index0`'s implementation is not under `src/`; per
spec section 4.C the insert removes the overlapped sub-ranges of existing
entries (dropping, splitting into left/right remainders with `moffset`
adjusted for the right remainder, or trimming) and places the new mapping
`m` verbatim.  The behaviour is validated below against the expected dump of
`TEST(Index0, insert)` in `src/overlaybd/lsmt/test/test.cpp`. -/
def insert0 (m : SegmentMapping) : List SegmentMapping → List SegmentMapping
  | [] => [m]
  | e :: rest =>
    if e.offset + e.length ≤ m.offset then
      e :: insert0 m rest
    else if m.offset + m.length ≤ e.offset then
      m :: e :: rest
    else
      (if m.offset ≤ e.offset then ([] : List SegmentMapping)
       else [leftPiece m e]) ++
      (if m.offset + m.length < e.offset + e.length then
        m :: rightPiece m e :: rest
      else
        insert0 m rest)

/-- Building an `Index0` from a raw array: sequential inserts into an
initially empty index, as the `Index0` constructor does. -/
def buildIndex0 (ms : List SegmentMapping) : List SegmentMapping :=
  ms.foldl (fun l m => insert0 m l) []

/-- `block_count()`: sum of `length * !zeroed` over the entries. -/
def blockCount (l : List SegmentMapping) : Nat :=
  (l.map fun m => m.length * (if m.zeroed then 0 else 1)).sum

/-- The merged view at point `p`: the first (smallest index, i.e. topmost)
layer that covers `p`, together with its covering mapping.
Modelled from the spec: merge/combo lookup (spec sections 3 and 4.E) draws,
for each point, the mapping from the highest-priority layer covering it. -/
def mergedAtFrom (p : Nat) : Nat → List (List SegmentMapping) →
    Option (Nat × SegmentMapping)
  | _, [] => none
  | i, L :: Ls =>
    match lookupAt L p with
    | some m => some (i, m)
    | none => mergedAtFrom p (i + 1) Ls

/-- Topmost covering layer (layer 0 is the top) and its mapping at `p`. -/
def mergedAt (layers : List (List SegmentMapping)) (p : Nat) :
    Option (Nat × SegmentMapping) :=
  mergedAtFrom p 0 layers

/-- The tag the combo view assigns to a mapping drawn from layer `i` of `K`
layers (layer 0 = the top `Index0`): the merged lower layers are tagged
`0 .. K-2` top-to-bottom and the top layer is tagged `K-1`, matching the
expected outputs of `TEST(Index, merge)` in
`src/overlaybd/lsmt/test/test.cpp`. -/
def tagOf (K i : Nat) : Nat := if i = 0 then K - 1 else i - 1

/-- Length of the maximal run starting at `p` (exclusive) on which the
merged view keeps returning the same `(layer, mapping)` pair, clipped to
`fin`. -/
def runLen (layers : List (List SegmentMapping)) (im : Nat × SegmentMapping) :
    Nat → Nat → Nat → Nat
  | _, _, 0 => 0
  | p, fin, fuel + 1 =>
    if p < fin ∧ mergedAt layers p = some im then
      1 + runLen layers im (p + 1) fin fuel
    else 0

/-- The smallest mapping offset, over all layers, that lies strictly beyond
`p`: the next point at which coverage can begin after an uncovered point. -/
def nextStart (layers : List (List SegmentMapping)) (p : Nat) : Option Nat :=
  ((layers.flatMap (fun L => L.map (fun m => m.offset))).filter
    (fun o => p < o)).min?

/-- The combo-view lookup walk from `p` to `fin`: at each covered point it
emits the maximal run drawn from the topmost covering layer, clipped, with
the physical offset shifted (zeroed extents keep their `moffset`) and the
tag set per `tagOf`; uncovered sub-ranges produce nothing and are skipped
to the next possible start of coverage.
Modelled from the spec: sections 4.B (clipped lookup) and 4.E (layered
walk), with tags per the in-repo tests. -/
def comboWalk (layers : List (List SegmentMapping)) :
    Nat → Nat → Nat → List SegmentMapping
  | _, _, 0 => []
  | p, fin, fuel + 1 =>
    if p < fin then
      match mergedAt layers p with
      | none =>
        match nextStart layers p with
        | none => []
        | some q => comboWalk layers q fin fuel
      | some (i, m) =>
        { offset := p, length := 1 + runLen layers (i, m) (p + 1) fin fuel,
          moffset := if m.zeroed then m.moffset else m.moffset + (p - m.offset),
          zeroed := m.zeroed, tag := tagOf layers.length i } ::
          comboWalk layers (p + (1 + runLen layers (i, m) (p + 1) fin fuel)) fin fuel
    else []

/-- `lookup(S)` of the combo view over `layers` (head = top layer). -/
def comboLookup (layers : List (List SegmentMapping)) (s : Segment) :
    List SegmentMapping :=
  comboWalk layers s.offset (s.offset + s.length) s.length

/-- `mapping0` of `TEST(Index0, insert)` in the repository's LSMT test. -/
def insertTestInput : List SegmentMapping :=
  [⟨0, 20, 0, false, 0⟩, ⟨10, 15, 50, false, 0⟩, ⟨30, 100, 20, false, 0⟩,
   ⟨5, 10, 3, false, 0⟩, ⟨40, 10, 123, false, 0⟩, ⟨200, 10, 2133, false, 0⟩,
   ⟨150, 100, 21, false, 0⟩]

/-- `stdrst` of `TEST(Index0, insert)`: the expected dump. -/
def insertTestExpected : List SegmentMapping :=
  [⟨0, 5, 0, false, 0⟩, ⟨5, 10, 3, false, 0⟩, ⟨15, 10, 55, false, 0⟩,
   ⟨30, 10, 20, false, 0⟩, ⟨40, 10, 123, false, 0⟩, ⟨50, 80, 40, false, 0⟩,
   ⟨150, 100, 21, false, 0⟩]

/-- `mapping0` of `TEST(Index, merge)`: the top layer. -/
def mergeTop : List SegmentMapping :=
  [⟨5, 5, 0, false, 0⟩, ⟨10, 10, 50, false, 0⟩, ⟨100, 10, 20, false, 0⟩]

/-- `mapping1` of `TEST(Index, merge)`. -/
def mergeL1 : List SegmentMapping :=
  [⟨0, 1, 7, false, 0⟩, ⟨2, 4, 5, false, 0⟩, ⟨15, 10, 22, false, 0⟩,
   ⟨30, 15, 89, false, 0⟩, ⟨87, 50, 32, false, 0⟩, ⟨150, 10, 84, false, 0⟩]

/-- `mapping2` of `TEST(Index, merge)`. -/
def mergeL2 : List SegmentMapping :=
  [⟨1, 3, 134, false, 0⟩, ⟨8, 4, 873, false, 0⟩, ⟨18, 72, 320, false, 0⟩,
   ⟨100, 100, 4893, false, 0⟩, ⟨1000, 1000, 39823, false, 0⟩]

/-- `mapping3` of `TEST(Index, merge)`. -/
def mergeL3 : List SegmentMapping :=
  [⟨23, 10, 0, false, 0⟩, ⟨65, 10, 50, false, 0⟩, ⟨89, 10, 20, false, 0⟩,
   ⟨230, 43, 432, false, 0⟩, ⟨1999, 31, 2393, false, 0⟩]

/-- Expected two-layer merge lookup of `TEST(Index, merge)` over
`{0, 10000}` (top layer entries carry tag 1, the lower layer tag 0). -/
def mergeExpected2 : List SegmentMapping :=
  [⟨0, 1, 7, false, 0⟩, ⟨2, 3, 5, false, 0⟩, ⟨5, 5, 0, false, 1⟩,
   ⟨10, 10, 50, false, 1⟩, ⟨20, 5, 27, false, 0⟩, ⟨30, 15, 89, false, 0⟩,
   ⟨87, 13, 32, false, 0⟩, ⟨100, 10, 20, false, 1⟩, ⟨110, 27, 55, false, 0⟩,
   ⟨150, 10, 84, false, 0⟩]

/-- Expected four-layer merge lookup of `TEST(Index, merge)` over
`{0, 10000}` (top layer entries carry tag 3). -/
def mergeExpected4 : List SegmentMapping :=
  [⟨0, 1, 7, false, 0⟩, ⟨1, 1, 134, false, 1⟩, ⟨2, 3, 5, false, 0⟩,
   ⟨5, 5, 0, false, 3⟩, ⟨10, 10, 50, false, 3⟩, ⟨20, 5, 27, false, 0⟩,
   ⟨25, 5, 327, false, 1⟩, ⟨30, 15, 89, false, 0⟩, ⟨45, 42, 347, false, 1⟩,
   ⟨87, 13, 32, false, 0⟩, ⟨100, 10, 20, false, 3⟩, ⟨110, 27, 55, false, 0⟩,
   ⟨137, 13, 4930, false, 1⟩, ⟨150, 10, 84, false, 0⟩, ⟨160, 40, 4953, false, 1⟩,
   ⟨230, 43, 432, false, 2⟩, ⟨1000, 1000, 39823, false, 1⟩,
   ⟨2000, 30, 2394, false, 2⟩]

end LSMT

namespace Cache

/-- 1 GiB, as in `cache_pool.cpp`. -/
def kGB : Nat := 1024 * 1024 * 1024

/-- `kMaxFreeSpace = 50 * kGB` from `cache_pool.cpp`. -/
def kMaxFreeSpace : Nat := 50 * kGB

/-- `kEvictionMark = 5ll * kGB` from `cache_pool.cpp`. -/
def kEvictionMark : Int := 5 * (kGB : Int)

/-- Modelled from the spec: `kWaterMarkRatio` is declared in
`cache_pool.h`, which is not under `src/`; the spec gives
"kWaterMarkRatio ≈ 90". -/
def kWaterMarkPercent : Nat := 90

/-- Two's-complement wrap of an integer into the `int64_t` range
(the literals are `2^63` and `2^64`). -/
def wrap64 (x : Int) : Int :=
  (x + 9223372036854775808) % 18446744073709551616 - 9223372036854775808

/-- Conversion of an integer to `uint64_t` (mod `2^64`). -/
def toU64 (x : Int) : Nat := (x % 18446744073709551616).toNat

/-- `FileCachePool::calcWaterMark(capacity, maxFreeSpace)`:
`max(capacity * kWaterMarkRatio * 0.01, capacity > maxFreeSpace ?
capacity - maxFreeSpace : 0)`.  The source computes the first operand in
`double`; it is modelled as exact floor division by 100 (the sub-ULP
rounding of the `double` product never moves the result across any of the
GiB-scale margins the theorems below depend on). -/
def calcWaterMark (capacity maxFreeSpace : Nat) : Nat :=
  max (capacity * kWaterMarkPercent / 100)
    (if maxFreeSpace < capacity then capacity - maxFreeSpace else 0)

/-- `int64_t capacityInBytes = capacityInGB_ * kGB` (the `uint64_t`
product converted to `int64_t`). -/
def capacityInBytes (capacityInGB : Nat) : Int :=
  wrap64 ((capacityInGB : Int) * (kGB : Int))

/-- `waterMark_` as computed by the `FileCachePool` constructor. -/
def poolWaterMark (capacityInGB : Nat) : Nat :=
  calcWaterMark (toU64 (capacityInBytes capacityInGB)) kMaxFreeSpace

/-- `riskMark_` as computed by the `FileCachePool` constructor:
`max(capacityInBytes - kEvictionMark, (int64(waterMark_) + capacityInBytes) >> 1)`
(`>> 1` on `int64_t` is an arithmetic shift, i.e. floor division by 2). -/
def poolRiskMark (capacityInGB : Nat) : Int :=
  max (wrap64 (capacityInBytes capacityInGB - kEvictionMark))
    (Int.fdiv (wrap64 (wrap64 (poolWaterMark capacityInGB) +
      capacityInBytes capacityInGB)) 2)

/-- `LruEntry`: per-key open count and accounted size (the LRU iterator and
the rw-lock of the source are represented by the entry's position in
`PoolState.entries` and are not modelled, respectively). -/
structure LruEntry where
  openCount : Nat
  size : Nat
deriving DecidableEq, Repr

/-- The pool state.  `entries` merges `fileIndex_` and `lru_`: it is the
association list from cache key to `LruEntry`, kept in LRU order with the
most recently used entry first (in the source every `fileIndex_` entry owns
exactly one `lru_` slot and vice versa, so one ordered list represents
both).  `media` is the media filesystem: file name to file size. -/
structure PoolState where
  entries : List (String × LruEntry)
  media : List (String × Nat)
  totalUsed : Int
  waterMark : Nat
  riskMark : Int
  diskAvailTarget : Nat
  isFull : Bool
  running : Bool
  exitFlag : Bool
deriving DecidableEq, Repr

/-- `fileIndex_.find(k)`: the first entry with key `k`. -/
def lookupEntry (s : PoolState) (k : String) : Option LruEntry :=
  (s.entries.find? (fun e => e.1 == k)).map (fun e => e.2)

/-- Remove the first entry with key `k`. -/
def eraseKeyFirst : List (String × LruEntry) → String → List (String × LruEntry)
  | [], _ => []
  | e :: rest, k => if e.1 == k then rest else e :: eraseKeyFirst rest k

/-- Replace the value of the first entry with key `k`. -/
def setEntryFirst : List (String × LruEntry) → String → LruEntry →
    List (String × LruEntry)
  | [], _, _ => []
  | e :: rest, k, v => if e.1 == k then (k, v) :: rest else e :: setEntryFirst rest k v

/-- `lru_.access`: move the entry with key `k` to the LRU front. -/
def touch (s : PoolState) (k : String) : PoolState :=
  match lookupEntry s k with
  | none => s
  | some v => { s with entries := (k, v) :: eraseKeyFirst s.entries k }

/-- Size of a media file, `none` when absent. -/
def mediaLookup (s : PoolState) (k : String) : Option Nat :=
  (s.media.find? (fun e => e.1 == k)).map (fun e => e.2)

/-- Set the recorded size of media file `k`. -/
def mediaSet : List (String × Nat) → String → Nat → List (String × Nat)
  | [], _, _ => []
  | e :: rest, k, v => if e.1 == k then (k, v) :: rest else e :: mediaSet rest k v

/-- `unlink`: remove media file `k`. -/
def mediaErase : List (String × Nat) → String → List (String × Nat)
  | [], _ => []
  | e :: rest, k => if e.1 == k then rest else e :: mediaErase rest k

/-- `FileCachePool::do_open` (successful path): open-or-create the media
file, then either create a fresh `LruEntry` with `openCount = 1` at the LRU
front, or touch the existing entry to the front and increment its open
count. -/
def do_open (s : PoolState) (k : String) : PoolState :=
  let s1 := match mediaLookup s k with
            | none => { s with media := (k, 0) :: s.media }
            | some _ => s
  match lookupEntry s1 k with
  | none => { s1 with entries := (k, ⟨1, 0⟩) :: s1.entries }
  | some v =>
    { s1 with entries :=
        (k, { v with openCount := v.openCount + 1 }) :: eraseKeyFirst s1.entries k }

/-- `FileCachePool::insertFile` (startup traversal; the `stat`-derived file
size is passed in): new entry with `openCount = 0` at the LRU front, and
`totalUsed_ += fileSize`. -/
def insertFile (s : PoolState) (k : String) (fileSize : Nat) : PoolState :=
  { s with entries := (k, ⟨0, fileSize⟩) :: s.entries,
           totalUsed := s.totalUsed + (fileSize : Int) }

/-- `FileCachePool::afterFtrucate`: subtract the entry's size from
`totalUsed_` (clamping at 0), zero the entry's size, and if its open count
is 0, unlink the media file and, on unlink success, drop the entry from the
LRU and the index. -/
def afterFtrucate (s : PoolState) (k : String) : PoolState :=
  match lookupEntry s k with
  | none => s
  | some v =>
    let tu := s.totalUsed - (v.size : Int)
    let v0 := { v with size := 0 }
    let s1 := { s with entries := setEntryFirst s.entries k v0,
                       totalUsed := if tu < 0 then 0 else tu }
    if v.openCount = 0 then
      match mediaLookup s1 k with
      | some _ => { s1 with media := mediaErase s1.media k,
                            entries := eraseKeyFirst s1.entries k }
      | none => s1
    else s1

/-- One iteration of the eviction loop body, returning the new state and the
amount subtracted from `actualEvict`.  `lru_.mark_key_cleared` is LRU-slot
bookkeeping with no further observable effect here and is modelled as a
no-op; `truncate` succeeds on a present media file and fails with `ENOENT`
(treated as already gone) on an absent one. -/
def evictionIter (s : PoolState) : PoolState × Int :=
  match s.entries.getLast? with
  | none => (s, 0)
  | some (k, v) =>
    let s1 := if v.openCount = 0 then s else touch s k
    if v.size = 0 then
      if v.openCount = 0 then (afterFtrucate s1 k, 0) else (s1, 0)
    else
      let s2 := match mediaLookup s1 k with
                | some _ => { s1 with media := mediaSet s1.media k 0 }
                | none => s1
      (afterFtrucate s2 k, (v.size : Int))

/-- The eviction `while` loop: continue while `actualEvict > 0`, the LRU is
non-empty and the pool is not exiting.  `fuel` bounds the number of
iterations (the source loop need not terminate when every entry is pinned
open at size 0). -/
def evictionLoop : Nat → Int → PoolState → PoolState
  | 0, _, s => s
  | fuel + 1, a, s =>
    if a ≤ 0 ∨ s.entries = [] ∨ s.exitFlag then s
    else
      let r := evictionIter s
      evictionLoop fuel (a - r.2) r.1

/-- `FileCachePool::eviction`.  `env` is the `statvfs` answer
`(f_frsize * f_blocks, f_bavail * f_frsize)`, `none` for failure.  The
`DEFER(isFull_ = false)` clears `isFull_` on every exit path. -/
def eviction (env : Option (Nat × Nat)) (fuel : Nat) (s : PoolState) : PoolState :=
  match env with
  | none => { s with isFull := false }
  | some (fsCapacity, diskAvail) =>
    if s.diskAvailTarget ≤ diskAvail ∧ fsCapacity ≤ s.waterMark then
      { s with isFull := false }
    else
      let evictByDisk : Nat :=
        if diskAvail < s.diskAvailTarget then s.diskAvailTarget - diskAvail else 0
      let evictByCache : Nat :=
        if (s.waterMark : Int) ≤ s.totalUsed then (s.totalUsed - (s.waterMark : Int)).toNat
        else 0
      let actualEvict : Int := ((max evictByCache evictByDisk : Nat) : Int)
      if actualEvict ≤ 0 then { s with isFull := false }
      else { evictionLoop fuel actualEvict { s with isFull := true } with isFull := false }

/-- `FileCachePool::timerHandler`: the single-runner guard.  If `running_`
is already set the call returns without touching the pool; otherwise it
sets `running_`, runs `eviction`, and the `DEFER` clears `running_` on
exit. -/
def timerHandler (env : Option (Nat × Nat)) (fuel : Nat) (s : PoolState) : PoolState :=
  if s.running then s
  else { eviction env fuel { s with running := true } with running := false }

/-- `FileCachePool::forceRecycle` simply invokes the timer handler. -/
def forceRecycle (env : Option (Nat × Nat)) (fuel : Nat) (s : PoolState) : PoolState :=
  timerHandler env fuel s

/-- `FileCachePool::updateSpace(iter, size)`: grow `totalUsed_` by the
positive part of the size delta, record the new size, and when
`totalUsed_ >= riskMark_` set `isFull_` and run `forceRecycle`
synchronously; the returned delta is zeroed if the recycle truncated the
entry to size 0. -/
def updateSpace (env : Option (Nat × Nat)) (fuel : Nat) (s : PoolState)
    (k : String) (size : Nat) : PoolState × Nat :=
  match lookupEntry s k with
  | none => (s, 0)
  | some v =>
    let diff : Nat := if v.size < size then size - v.size else 0
    let v1 := { v with size := size }
    let s1 := { s with entries := setEntryFirst s.entries k v1,
                       totalUsed := s.totalUsed + (diff : Int) }
    if s.riskMark ≤ s1.totalUsed then
      let s2 := forceRecycle env fuel { s1 with isFull := true }
      (s2, if (lookupEntry s2 k).map (fun e => e.size) = some 0 then 0 else diff)
    else (s1, diff)

/-- Sum of the recorded sizes of all entries. -/
def sumSizes (s : PoolState) : Nat :=
  (s.entries.map (fun e => e.2.size)).sum

/-- The pool accounting invariant: `totalUsed_ == Σ entry.size`. -/
def Accounted (s : PoolState) : Prop := s.totalUsed = (sumSizes s : Int)

instance (s : PoolState) : Decidable (Accounted s) := by
  unfold Accounted; infer_instance

/-- The keys of the pool's index, in LRU order. -/
def poolKeys (s : PoolState) : List String := s.entries.map (fun e => e.1)

/-- A concrete pool: one entry `"a"` with an open reader and 10 accounted
bytes, `waterMark = 5`, `riskMark = 1000`. -/
def cexPool : PoolState :=
  { entries := [("a", ⟨1, 10⟩)], media := [("a", 10)], totalUsed := 10,
    waterMark := 5, riskMark := 1000, diskAvailTarget := 0,
    isFull := false, running := false, exitFlag := false }

/-- A concrete pool with `running_` set. -/
def cexPoolRunning : PoolState :=
  { entries := [], media := [], totalUsed := 0,
    waterMark := 5, riskMark := 1000, diskAvailTarget := 0,
    isFull := false, running := true, exitFlag := false }

end Cache

namespace SwitchFileModel

/-- The `SwitchFile` state visible to `check_switch`/`do_switch`:
`state` (0 normal, 1 ready-to-switch, 2 in-processing), the in-flight
operation count, the `local_path` flag, and `gen`, an abstract identity of
`m_file` that increments when a switch installs the new local file. -/
structure SwState where
  state : Nat
  ioCount : Nat
  localPath : Bool
  gen : Nat
deriving DecidableEq, Repr

/-- `SwitchFile::set_switch_file`: mark a switch pending. -/
def set_switch_file (s : SwState) : SwState := { s with state := 1 }

/-- `SwitchFile::do_switch`: `ok` abstracts whether opening the local
file (and its tar/zfile adaptors) succeeds.  On success the new file is
installed (`m_old = m_file; m_file = file; local_path = true`) and 0 is
returned; on failure the state is untouched and -1 is returned. -/
def do_switch (ok : Bool) (s : SwState) : SwState × Int :=
  if ok then ({ s with localPath := true, gen := s.gen + 1 }, 0) else (s, -1)

/-- Outcome of a `check_switch` call: the caller proceeds to forward the
operation, or blocks in the `state == 2` spin loop. -/
inductive CheckOutcome
  | proceed
  | blocked
deriving DecidableEq, Repr

/-- `SwitchFile::check_switch`.  `state == 0`: proceed.  `state == 2`:
spin until `state` becomes 0 — no file operation ever resets it, so the
call is modelled as blocked with the state unchanged.  `state == 1`: set
`state = 2`, spin until `io_count == 0` (the cooperative drain is modelled
by running `do_switch` in the drained state), and reset `state` to 0 only
when `do_switch` succeeded. -/
def check_switch (ok : Bool) (s : SwState) : CheckOutcome × SwState :=
  if s.state = 0 then (.proceed, s)
  else if s.state = 2 then (.blocked, s)
  else
    let r := do_switch ok { s with state := 2, ioCount := 0 }
    if r.2 = 0 then (.proceed, { r.1 with state := 0 }) else (.proceed, r.1)

/-- The state transition a file operation's `FORWARD` prologue applies
(the operation itself forwards only when the outcome is `proceed`). -/
def fileOpStep (ok : Bool) (s : SwState) : SwState := (check_switch ok s).2

end SwitchFileModel

namespace ImageServiceModel

/-- Strings are modelled as character lists (`String.toList`). -/
abbrev Str := List Char

/-- Split a string at every `'/'`, the separators excluded: the chunks
before each `'/'` followed by the trailing remainder. -/
def splitSlash : Str → Str → List Str
  | [], acc => [acc.reverse]
  | c :: rest, acc =>
    if c = '/' then acc.reverse :: splitSlash rest []
    else splitSlash rest (c :: acc)

/-- The `words` vector built by the `parse_blob_url` loop: one word per
`'/'` found, i.e. every chunk except the trailing remainder. -/
def urlWords (sub : Str) : List Str := (splitSlash sub []).dropLast

/-- `parse_blob_url(url, ref)` from `src/image_service.cpp`, acting on
`ref.seg` (passed in as `seg0`, returned updated).  The source splits the
part after the matched `http://`/`https://` at every `'/'` (dropping the
piece after the last one) into `words`, then reads `words[0]`
unconditionally and appends `words[2] .. words[size-2]`; the out-of-bounds
read of `words[0]` on an empty `words` is modelled as `none`.  The `int`
return value of the source is always 0. -/
def parse_blob_url (url : Str) (seg0 : List Str) : Option (List Str) :=
  if ("http://".toList).isPrefixOf url then parseSub (url.drop 7)
  else if ("https://".toList).isPrefixOf url then parseSub (url.drop 8)
  else some seg0
where
  parseSub (sub : Str) : Option (List Str) :=
    match urlWords sub with
    | [] => none
    | w0 :: _ => some (w0 :: ((urlWords sub).drop 2).dropLast)

/-- One entry value of the auth config: a base64 `auth` token (modelled
already base64-decoded; decoding is an external collaborator), a
username/password pair, or neither. -/
inductive CredEntry
  | auth (token : Str)
  | basic (user pass : Str)
  | nocred
deriving DecidableEq, Repr

/-- Split a token at its first `':'` (`token.find(":")` plus the two
`substr` calls of the source); `none` when there is no `':'`. -/
def splitFirstColon : Str → Str → Option (Str × Str)
  | [], _ => none
  | c :: rest, acc =>
    if c = ':' then some (acc.reverse, rest) else splitFirstColon rest (c :: acc)

/-- The credentials an auth-config entry yields: the `auth` token is split
at its first `':'` (no `':'` means the entry is skipped), a
username/password pair is returned as is. -/
def credOf : CredEntry → Option (Str × Str)
  | .auth token => splitFirstColon token []
  | .basic u p => some (u, p)
  | .nocred => none

/-- The candidate addresses built from `ref.seg`: the source's inner loop
grows the probe one segment at a time (`seg0`, `seg0/seg1`, ...) and
declares a match when the entry's address equals the current value. -/
def candidateAddrs (seg : List Str) : List Str :=
  (List.range seg.length).map (fun i => List.intercalate ['/'] (seg.take (i + 1)))

/-- The entry-matching loop of `load_cred_from_file`: walk the config
entries in file order; the first entry whose address equals one of the
candidate addresses and that carries usable credentials wins. -/
def loadCredLoop (cands : List Str) :
    List (Str × CredEntry) → Option (Str × Str)
  | [] => none
  | (addr, c) :: rest =>
    if addr ∈ cands then
      match credOf c with
      | some up => some up
      | none => loadCredLoop cands rest
    else loadCredLoop cands rest

/-- `load_cred_from_file` from `src/image_service.cpp` (the JSON parsing is
represented by the already-parsed `cfg` association list, in file order):
parse the blob URL into `ref.seg`, then scan the config entries. -/
def load_cred_from_file (cfg : List (Str × CredEntry)) (remote_path : Str) :
    Option (Str × Str) :=
  match parse_blob_url remote_path [] with
  | none => none
  | some seg => loadCredLoop (candidateAddrs seg) cfg

end ImageServiceModel

/-! ## Theorems -/

namespace Cache

theorem wrap64_id (x : Int) (h1 : -(2 ^ 63) ≤ x) (h2 : x < 2 ^ 63) : wrap64 x = x := by
  unfold wrap64
  omega

theorem toU64_id (x : Int) (h1 : 0 ≤ x) (h2 : x < 2 ^ 64) : toU64 x = x.toNat := by
  unfold toU64
  omega

/-- C5, counterexample: at `capacityInGB = 0` the constructor computes
`waterMark_ = riskMark_ = capacity = 0`, so the strict ordering
`waterMark_ < riskMark_ < capacity` claimed for every capacity argument
fails. -/
theorem pool_marks_ordering_cex :
    capacityInBytes 0 = 0 ∧ poolWaterMark 0 = 0 ∧ poolRiskMark 0 = 0 ∧
      ¬ (((poolWaterMark 0 : Int) < poolRiskMark 0) ∧
          poolRiskMark 0 < capacityInBytes 0) := by
  decide

/-- C5, amended: for every capacity argument of at least 1 GiB whose byte
count fits `int64_t` (`capacityInGB < 2^33`), the constructor's thresholds
satisfy the strict ordering `waterMark_ < riskMark_ < capacity`. -/
theorem pool_marks_ordering (gb : Nat) (hg1 : 1 ≤ gb) (hg2 : gb < 2 ^ 33) :
    ((poolWaterMark gb : Int) < poolRiskMark gb) ∧
      poolRiskMark gb < capacityInBytes gb := by
  have hkgb : kGB = 2 ^ 30 := by decide
  have hev : kEvictionMark = 5 * 2 ^ 30 := by norm_num [kEvictionMark, kGB]
  have hc1 : 2 ^ 30 ≤ gb * kGB := by rw [hkgb]; omega
  have hc2 : gb * kGB < 2 ^ 63 := by rw [hkgb]; omega
  have hcap : capacityInBytes gb = ((gb * kGB : Nat) : Int) := by
    unfold capacityInBytes
    rw [wrap64_id] <;> push_cast <;> omega
  have htou : toU64 (capacityInBytes gb) = gb * kGB := by
    rw [hcap, toU64_id] <;> push_cast <;> omega
  set c : Nat := gb * kGB with hc
  have hwchar : poolWaterMark gb =
      max (c * 90 / 100) (if 50 * 2 ^ 30 < c then c - 50 * 2 ^ 30 else 0) := by
    unfold poolWaterMark
    rw [htou]
    unfold calcWaterMark kMaxFreeSpace kWaterMarkPercent
    rw [hkgb]
  set w : Nat := poolWaterMark gb with hwdef
  have hwmb1 : w + 2 ≤ c := by
    rw [hwchar]
    rcases Nat.le_total (c * 90 / 100)
        (if 50 * 2 ^ 30 < c then c - 50 * 2 ^ 30 else 0) with h | h
    · rw [Nat.max_eq_right h]; split <;> omega
    · rw [Nat.max_eq_left h]; omega
  have hwmb2 : 2 ^ 62 ≤ c → w + 5 * 2 ^ 30 + 1 ≤ c := by
    intro hcb
    rw [hwchar]
    rcases Nat.le_total (c * 90 / 100)
        (if 50 * 2 ^ 30 < c then c - 50 * 2 ^ 30 else 0) with h | h
    · rw [Nat.max_eq_right h]; split <;> omega
    · rw [Nat.max_eq_left h]; omega
  have hrm : poolRiskMark gb =
      max ((c : Int) - kEvictionMark)
        (Int.fdiv (wrap64 ((w : Int) + (c : Int))) 2) := by
    unfold poolRiskMark
    rw [← hwdef, hcap]
    have h1 : wrap64 (((c : Nat) : Int) - kEvictionMark) = (c : Int) - kEvictionMark := by
      apply wrap64_id <;> rw [hev] <;> push_cast <;> omega
    have h2 : wrap64 (((w : Nat) : Int)) = ((w : Nat) : Int) := by
      apply wrap64_id <;> push_cast <;> omega
    rw [h1, h2]
  rw [hrm, hcap]
  clear hrm hwchar hcap htou
  rcases Int.lt_or_le ((w : Int) + (c : Int)) (2 ^ 63) with hbig | hbig
  · have hwrap : wrap64 ((w : Int) + (c : Int)) = (w : Int) + (c : Int) := by
      apply wrap64_id <;> push_cast <;> omega
    have hfd : Int.fdiv ((w : Int) + (c : Int)) 2 = ((w : Int) + (c : Int)) / 2 :=
      Int.fdiv_eq_ediv _ (by norm_num)
    rw [hwrap, hfd, hev]
    clear hwrap hfd hev
    constructor
    · apply lt_max_of_lt_right
      omega
    · apply max_lt <;> omega
  · have hwrap : wrap64 ((w : Int) + (c : Int)) = (w : Int) + (c : Int) - 2 ^ 64 := by
      unfold wrap64; push_cast; omega
    have hcbig : 2 ^ 62 ≤ c := by omega
    have hwc := hwmb2 hcbig
    have hfd : Int.fdiv ((w : Int) + (c : Int) - 2 ^ 64) 2 =
        ((w : Int) + (c : Int) - 2 ^ 64) / 2 :=
      Int.fdiv_eq_ediv _ (by norm_num)
    rw [hwrap, hfd, hev]
    clear hwrap hfd hev
    constructor
    · apply lt_max_of_lt_left
      omega
    · apply max_lt <;> omega

theorem pool_marks_ordering_witness :
    (1 ≤ 10 ∧ 10 < 2 ^ 33) ∧
      (((poolWaterMark 10 : Int) < poolRiskMark 10) ∧
        poolRiskMark 10 < capacityInBytes 10) :=
  ⟨by decide, pool_marks_ordering 10 (by decide) (by decide)⟩

end Cache

namespace Cache

theorem touch_running (s : PoolState) (k : String) : (touch s k).running = s.running := by
  unfold touch
  rcases lookupEntry s k with _ | v <;> rfl

theorem afterFtrucate_running (s : PoolState) (k : String) :
    (afterFtrucate s k).running = s.running := by
  unfold afterFtrucate
  rcases lookupEntry s k with _ | v
  · rfl
  · dsimp only
    split
    · rcases mediaLookup _ k with _ | n <;> rfl
    · rfl

theorem evictionIter_running (s : PoolState) :
    (evictionIter s).1.running = s.running := by
  unfold evictionIter
  rcases s.entries.getLast? with _ | ⟨k, v⟩
  · rfl
  · dsimp only
    by_cases h0 : v.openCount = 0 <;> by_cases h1 : v.size = 0 <;>
      simp only [h0, h1, if_pos, if_neg, if_true, if_false, reduceIte]
    · rw [afterFtrucate_running]
    · rcases hm : mediaLookup s k with _ | n <;>
        simp only [hm] <;> rw [afterFtrucate_running]
    · simp [h0, touch_running]
    · rcases hm : mediaLookup (touch s k) k with _ | n <;>
        simp only [hm] <;> rw [afterFtrucate_running] <;> simp [touch_running]
end Cache

namespace Cache

theorem evictionLoop_running (fuel : Nat) :
    ∀ (a : Int) (s : PoolState), (evictionLoop fuel a s).running = s.running := by
  induction fuel with
  | zero => intro a s; rfl
  | succ n ih =>
    intro a s
    unfold evictionLoop
    split
    · rfl
    · rw [ih, evictionIter_running]

theorem eviction_running (env : Option (Nat × Nat)) (fuel : Nat) (s : PoolState) :
    (eviction env fuel s).running = s.running := by
  unfold eviction
  rcases env with _ | ⟨fsCap, da⟩
  · rfl
  · dsimp only
    repeat' split
    all_goals simp only [evictionLoop_running]

/-- C9: eviction is guarded against re-entry.  When `running_` is set, an
invocation of `timerHandler` (and of `forceRecycle`, which is the same
call) returns without evicting or modifying any pool state; when it is
clear, the handler runs `eviction` with `running_` set for the whole run
(eviction itself never changes the flag) and clears it on exit. -/
theorem eviction_single_runner (env : Option (Nat × Nat)) (fuel : Nat) (s : PoolState) :
    (s.running = true → timerHandler env fuel s = s) ∧
    (s.running = false →
      timerHandler env fuel s =
        { eviction env fuel { s with running := true } with running := false } ∧
      (timerHandler env fuel s).running = false) ∧
    forceRecycle env fuel s = timerHandler env fuel s ∧
    (eviction env fuel s).running = s.running := by
  refine ⟨fun h => ?_, fun h => ⟨?_, ?_⟩, rfl, eviction_running env fuel s⟩
  · unfold timerHandler
    rw [h]
    rfl
  · unfold timerHandler
    rw [h]
    rfl
  · unfold timerHandler
    rw [h]
    rfl

theorem eviction_single_runner_witness :
    timerHandler none 1 cexPoolRunning = cexPoolRunning ∧
    (timerHandler none 1 cexPool).running = false :=
  ⟨(eviction_single_runner none 1 cexPoolRunning).1 rfl,
   ((eviction_single_runner none 1 cexPool).2.1 rfl).2⟩

end Cache

namespace SwitchFileModel

theorem fileOpStep_state2 (s : SwState) (h : s.state = 2) (ok : Bool) :
    fileOpStep ok s = s := by
  unfold fileOpStep check_switch
  rw [h]
  rfl

/-- C10: after `set_switch_file` marks a switch pending (`state = 1`), the
file returns to normal forwarding (`state = 0`) only through a successful
`do_switch`, which executes in the drained state (`io_count = 0`); a failed
`do_switch` leaves `state = 2`, and from `state = 2` every later file
operation blocks in `check_switch` without being forwarded and without any
state change, forever. -/
theorem switch_state_machine (s : SwState) (ok : Bool) :
    (set_switch_file s).state = 1 ∧
    (s.state = 1 → ok = true → check_switch ok s =
      (.proceed, { s with state := 0, ioCount := 0, localPath := true,
                          gen := s.gen + 1 })) ∧
    (s.state = 1 → ok = false →
      check_switch ok s = (.proceed, { s with state := 2, ioCount := 0 })) ∧
    (s.state = 2 → check_switch ok s = (.blocked, s)) ∧
    (s.state ≤ 2 → (check_switch ok s).2.state = 0 →
      s.state = 0 ∨ (s.state = 1 ∧ ok = true)) ∧
    (s.state = 2 → ∀ l : List Bool,
      l.foldl (fun t o => fileOpStep o t) s = s ∧
      (check_switch ok (l.foldl (fun t o => fileOpStep o t) s)).1 =
        CheckOutcome.blocked) := by
  refine ⟨rfl, ?_, ?_, ?_, ?_, ?_⟩
  · intro h1 hok
    unfold check_switch do_switch
    rw [h1, hok]
    rfl
  · intro h1 hok
    unfold check_switch do_switch
    rw [h1, hok]
    rfl
  · intro h2
    unfold check_switch
    rw [h2]
    rfl
  · intro hle h0
    unfold check_switch do_switch at h0
    by_cases hs0 : s.state = 0
    · exact Or.inl hs0
    · by_cases hs2 : s.state = 2
      · rw [if_neg hs0, if_pos hs2] at h0
        exact absurd h0 (by rw [hs2]; decide)
      · rw [if_neg hs0, if_neg hs2] at h0
        cases ok with
        | true =>
          right
          refine ⟨by omega, rfl⟩
        | false =>
          simp at h0
  · intro h2 l
    have hfold : l.foldl (fun t o => fileOpStep o t) s = s := by
      induction l with
      | nil => rfl
      | cons o rest ih =>
        simp only [List.foldl_cons, fileOpStep_state2 s h2 o, ih]
    refine ⟨hfold, ?_⟩
    rw [hfold]
    unfold check_switch
    rw [h2]
    rfl

theorem switch_state_machine_witness :
    (SwState.state ⟨1, 5, false, 0⟩ = 1 ∧
      check_switch true ⟨1, 5, false, 0⟩ = (.proceed, ⟨0, 0, true, 1⟩)) ∧
    (SwState.state ⟨2, 0, false, 0⟩ = 2 ∧
      check_switch false ⟨2, 0, false, 0⟩ = (.blocked, ⟨2, 0, false, 0⟩) ∧
      [true, false].foldl (fun t o => fileOpStep o t) ⟨2, 0, false, 0⟩ =
        ⟨2, 0, false, 0⟩) :=
  ⟨⟨rfl, (switch_state_machine ⟨1, 5, false, 0⟩ true).2.1 rfl rfl⟩,
   ⟨rfl, (switch_state_machine ⟨2, 0, false, 0⟩ false).2.2.2.1 rfl,
    ((switch_state_machine ⟨2, 0, false, 0⟩ false).2.2.2.2.2 rfl [true, false]).1⟩⟩

end SwitchFileModel

namespace ImageServiceModel

theorem splitSlash_length (l : List Char) :
    ∀ acc, (splitSlash l acc).length = l.count '/' + 1 := by
  induction l with
  | nil => intro acc; rfl
  | cons c rest ih =>
    intro acc
    unfold splitSlash
    by_cases hc : c = '/'
    · rw [if_pos hc, hc]
      simp [List.count_cons, ih]
    · rw [if_neg hc]
      rw [ih]
      simp [List.count_cons, hc]

theorem urlWords_eq_nil_iff (sub : List Char) : urlWords sub = [] ↔ '/' ∉ sub := by
  unfold urlWords
  rw [← List.length_eq_zero, List.length_dropLast, splitSlash_length]
  constructor
  · intro h hm
    have := List.count_pos_iff.mpr hm
    omega
  · intro h
    have : sub.count '/' = 0 := List.count_eq_zero.mpr h
    omega

theorem parseSub_none_iff (sub : List Char) :
    parse_blob_url.parseSub sub = none ↔ '/' ∉ sub := by
  rw [← urlWords_eq_nil_iff]
  unfold parse_blob_url.parseSub
  rcases urlWords sub with _ | ⟨w, ws⟩ <;> simp

/-- C8, counterexample: on input `"http://foo"` the matched remainder
`"foo"` contains no `'/'`, `words` is empty, and the unconditional read of
`words[0]` is out of bounds (modelled as `none`), refuting the claim that
`parse_blob_url` is safe on every input. -/
theorem parse_blob_url_oob_cex :
    parse_blob_url ("http://foo".toList) [] = none := by decide

/-- C8, amended: `parse_blob_url` always returns 0 and leaves `ref.seg`
unchanged when the url starts with neither `http://` nor `https://`; when a
prefix matches it reads `words[0]` unconditionally, which is out of bounds
precisely when the remainder after the prefix contains no `'/'`, and it is
safe on all other inputs. -/
theorem parse_blob_url_safety (url : Str) (seg0 : List Str) :
    (("http://".toList).isPrefixOf url = false →
      ("https://".toList).isPrefixOf url = false →
      parse_blob_url url seg0 = some seg0) ∧
    (parse_blob_url url seg0 = none ↔
      (("http://".toList).isPrefixOf url = true ∧ '/' ∉ url.drop 7) ∨
      (("http://".toList).isPrefixOf url = false ∧
        ("https://".toList).isPrefixOf url = true ∧ '/' ∉ url.drop 8)) := by
  constructor
  · intro h1 h2
    unfold parse_blob_url
    rw [h1, h2]
    rfl
  · unfold parse_blob_url
    by_cases h1 : ("http://".toList).isPrefixOf url
    · rw [h1]
      simp only [if_true, h1, true_and, false_and, or_false]
      rw [parseSub_none_iff]
      simp
    · rw [Bool.not_eq_true] at h1
      rw [h1]
      by_cases h2 : ("https://".toList).isPrefixOf url
      · rw [h2]
        simp only [Bool.false_eq_true, if_false, if_true, h1, h2, false_and,
          true_and, or_true, false_or]
        rw [parseSub_none_iff]
      · rw [Bool.not_eq_true] at h2
        rw [h2]
        simp [h1, h2]

theorem parse_blob_url_safety_witness :
    (("http://".toList).isPrefixOf ("ftp://x/y/".toList) = false ∧
      ("https://".toList).isPrefixOf ("ftp://x/y/".toList) = false) ∧
    parse_blob_url ("ftp://x/y/".toList) [] = some [] :=
  ⟨by decide,
   (parse_blob_url_safety ("ftp://x/y/".toList) []).1 (by decide) (by decide)⟩

end ImageServiceModel

namespace ImageServiceModel

theorem loadCredLoop_cons (cands : List Str) (addr : Str) (c : CredEntry)
    (rest : List (Str × CredEntry)) :
    loadCredLoop cands ((addr, c) :: rest) =
      if addr ∈ cands then
        match credOf c with
        | some up => some up
        | none => loadCredLoop cands rest
      else loadCredLoop cands rest := rfl

theorem loadCredLoop_first_match (cands : List Str) (post : List (Str × CredEntry))
    (addr : Str) (c : CredEntry) (up : Str × Str) :
    ∀ pre : List (Str × CredEntry),
      (∀ e ∈ pre, e.1 ∉ cands ∨ credOf e.2 = none) →
      addr ∈ cands → credOf c = some up →
      loadCredLoop cands (pre ++ (addr, c) :: post) = some up := by
  intro pre
  induction pre with
  | nil =>
    intro _ haddr hc
    rw [List.nil_append, loadCredLoop_cons, if_pos haddr, hc]
  | cons e rest ih =>
    intro hpre haddr hc
    have he := hpre e (List.mem_cons_self e rest)
    have hrest : ∀ x ∈ rest, x.1 ∉ cands ∨ credOf x.2 = none := by
      intro x hx
      exact hpre x (List.mem_cons_of_mem e hx)
    rw [List.cons_append]
    rcases e with ⟨eaddr, ec⟩
    rw [loadCredLoop_cons]
    rcases he with hmem | hnone
    · rw [if_neg hmem]
      exact ih hrest haddr hc
    · by_cases hm : (eaddr, ec).1 ∈ cands
      · rw [if_pos hm]
        dsimp only at hnone
        rw [hnone]
        exact ih hrest haddr hc
      · rw [if_neg hm]
        exact ih hrest haddr hc

/-- C7, counterexample: with two config entries whose addresses both equal
candidate addresses of the blob URL, the result is the entry that appears
first in the config file, not the one with the longest matching address:
reversing the entry order changes the returned credentials. -/
theorem cred_order_dependent_cex :
    load_cred_from_file
        [("reg.io".toList, .basic ("u1".toList) ("p1".toList)),
         ("reg.io/ns/repo".toList, .basic ("u2".toList) ("p2".toList))]
        ("http://reg.io/v2/ns/repo/blobs/sha256:abc".toList)
      = some ("u1".toList, "p1".toList) ∧
    load_cred_from_file
        [("reg.io/ns/repo".toList, .basic ("u2".toList) ("p2".toList)),
         ("reg.io".toList, .basic ("u1".toList) ("p1".toList))]
        ("http://reg.io/v2/ns/repo/blobs/sha256:abc".toList)
      = some ("u2".toList, "p2".toList) := by
  constructor <;> decide

/-- C7, amended: `load_cred_from_file` returns the credentials of the
first config entry, in file order, whose address equals one of the
candidate addresses built from the URL and that carries usable
credentials — not the entry with the longest matching address. -/
theorem cred_first_match (cfg pre post : List (Str × CredEntry)) (addr : Str)
    (c : CredEntry) (up : Str × Str) (url : Str) (seg : List Str)
    (hparse : parse_blob_url url [] = some seg)
    (hcfg : cfg = pre ++ (addr, c) :: post)
    (hpre : ∀ e ∈ pre, e.1 ∉ candidateAddrs seg ∨ credOf e.2 = none)
    (haddr : addr ∈ candidateAddrs seg) (hc : credOf c = some up) :
    load_cred_from_file cfg url = some up := by
  unfold load_cred_from_file
  rw [hparse, hcfg]
  exact loadCredLoop_first_match _ _ _ _ _ pre hpre haddr hc

theorem cred_first_match_witness :
    (parse_blob_url ("http://reg.io/v2/ns/repo/blobs/sha256:abc".toList) [] =
        some ["reg.io".toList, "ns".toList, "repo".toList] ∧
      ("reg.io".toList) ∈
        candidateAddrs ["reg.io".toList, "ns".toList, "repo".toList] ∧
      credOf (.basic ("u1".toList) ("p1".toList)) =
        some ("u1".toList, "p1".toList)) ∧
    load_cred_from_file
        [("reg.io".toList, .basic ("u1".toList) ("p1".toList)),
         ("reg.io/ns/repo".toList, .basic ("u2".toList) ("p2".toList))]
        ("http://reg.io/v2/ns/repo/blobs/sha256:abc".toList)
      = some ("u1".toList, "p1".toList) :=
  ⟨⟨by decide, by decide, by decide⟩,
   cred_first_match _ []
     [("reg.io/ns/repo".toList, .basic ("u2".toList) ("p2".toList))]
     ("reg.io".toList) (.basic ("u1".toList) ("p1".toList))
     ("u1".toList, "p1".toList)
     ("http://reg.io/v2/ns/repo/blobs/sha256:abc".toList)
     ["reg.io".toList, "ns".toList, "repo".toList]
     (by decide) rfl (by intro e he; simp at he) (by decide) (by decide)⟩

end ImageServiceModel

namespace Cache

theorem find?_cons_key (x : String × LruEntry) (l : List (String × LruEntry)) (k : String) :
    (x :: l).find? (fun e => e.1 == k) =
      if x.1 = k then some x else l.find? (fun e => e.1 == k) := by
  by_cases h : x.1 = k
  · rw [if_pos h, List.find?_cons_of_pos]
    exact beq_iff_eq.mpr h
  · rw [if_neg h, List.find?_cons_of_neg]
    simp [h]

theorem sum_of_find (l : List (String × LruEntry)) (k : String) (e : String × LruEntry)
    (h : l.find? (fun x => x.1 == k) = some e) :
    (l.map (fun x => x.2.size)).sum =
      e.2.size + ((eraseKeyFirst l k).map (fun x => x.2.size)).sum := by
  induction l with
  | nil => simp at h
  | cons x rest ih =>
    rw [find?_cons_key] at h
    unfold eraseKeyFirst
    by_cases hx : x.1 = k
    · rw [if_pos hx] at h
      cases h
      rw [if_pos (beq_iff_eq.mpr hx)]
      simp
    · rw [if_neg hx] at h
      have hbeq : (x.1 == k) = false := by simp [hx]
      rw [hbeq]
      simp only [List.map_cons, List.sum_cons, if_false, Bool.false_eq_true]
      rw [ih h]
      omega

theorem sum_of_set (l : List (String × LruEntry)) (k : String) (v : LruEntry)
    (e : String × LruEntry) (h : l.find? (fun x => x.1 == k) = some e) :
    ((setEntryFirst l k v).map (fun x => x.2.size)).sum + e.2.size =
      (l.map (fun x => x.2.size)).sum + v.size := by
  induction l with
  | nil => simp at h
  | cons x rest ih =>
    rw [find?_cons_key] at h
    unfold setEntryFirst
    by_cases hx : x.1 = k
    · rw [if_pos hx] at h
      cases h
      rw [if_pos (beq_iff_eq.mpr hx)]
      simp
      omega
    · rw [if_neg hx] at h
      have hbeq : (x.1 == k) = false := by simp [hx]
      rw [hbeq]
      simp only [List.map_cons, List.sum_cons, if_false, Bool.false_eq_true]
      have := ih h
      omega

theorem find?_of_set_self (l : List (String × LruEntry)) (k : String) (v : LruEntry)
    (e : String × LruEntry) (h : l.find? (fun x => x.1 == k) = some e) :
    (setEntryFirst l k v).find? (fun x => x.1 == k) = some (k, v) := by
  induction l with
  | nil => simp at h
  | cons x rest ih =>
    rw [find?_cons_key] at h
    unfold setEntryFirst
    by_cases hx : x.1 = k
    · rw [if_pos (beq_iff_eq.mpr hx), find?_cons_key, if_pos rfl]
    · rw [if_neg hx] at h
      have hbeq : (x.1 == k) = false := by simp [hx]
      rw [hbeq]
      simp only [Bool.false_eq_true, if_false]
      rw [find?_cons_key, if_neg hx]
      exact ih h

theorem erase_length_of_find (l : List (String × LruEntry)) (k : String)
    (e : String × LruEntry) (h : l.find? (fun x => x.1 == k) = some e) :
    (eraseKeyFirst l k).length + 1 = l.length := by
  induction l with
  | nil => simp at h
  | cons x rest ih =>
    rw [find?_cons_key] at h
    unfold eraseKeyFirst
    by_cases hx : x.1 = k
    · rw [if_pos (beq_iff_eq.mpr hx)]
      rfl
    · rw [if_neg hx] at h
      have hbeq : (x.1 == k) = false := by simp [hx]
      rw [hbeq]
      simp only [Bool.false_eq_true, if_false, List.length_cons]
      rw [← ih h]

end Cache

namespace Cache

theorem accounted_touch (s : PoolState) (k : String) (h : Accounted s) :
    Accounted (touch s k) := by
  unfold Accounted sumSizes at h ⊢
  unfold touch lookupEntry
  rcases hf : s.entries.find? (fun e => e.1 == k) with _ | e
  · simp only [hf, Option.map_none']
    exact h
  · have hsum := sum_of_find s.entries k e hf
    simp only [hf, Option.map_some']
    simp only [List.map_cons, List.sum_cons]
    omega

theorem accounted_afterFtrucate (s : PoolState) (k : String) (h : Accounted s) :
    Accounted (afterFtrucate s k) := by
  unfold Accounted sumSizes at h ⊢
  unfold afterFtrucate lookupEntry
  rcases hf : s.entries.find? (fun e => e.1 == k) with _ | e
  · simp only [hf, Option.map_none']
    exact h
  · have hsum := sum_of_find s.entries k e hf
    have hset := sum_of_set s.entries k ({ e.2 with size := 0 }) e hf
    have hset_find := find?_of_set_self s.entries k ({ e.2 with size := 0 }) e hf
    have hsum2 := sum_of_find _ k _ hset_find
    simp only [hf, Option.map_some']
    dsimp only at hset hsum2
    repeat' split
    all_goals dsimp only
    all_goals omega

end Cache

namespace Cache

theorem accounted_evictionIter (s : PoolState) (h : Accounted s) :
    Accounted (evictionIter s).1 := by
  unfold evictionIter
  rcases hl : s.entries.getLast? with _ | ⟨k, v⟩
  · exact h
  · dsimp only
    repeat' split
    all_goals dsimp only
    all_goals first
      | exact h
      | exact accounted_touch s k h
      | exact accounted_afterFtrucate _ k h
      | exact accounted_afterFtrucate _ k (accounted_touch s k h)

theorem accounted_evictionLoop (fuel : Nat) :
    ∀ (a : Int) (s : PoolState), Accounted s → Accounted (evictionLoop fuel a s) := by
  induction fuel with
  | zero => intro a s h; exact h
  | succ n ih =>
    intro a s h
    unfold evictionLoop
    split
    · exact h
    · exact ih _ _ (accounted_evictionIter s h)

theorem accounted_eviction (env : Option (Nat × Nat)) (fuel : Nat) (s : PoolState)
    (h : Accounted s) : Accounted (eviction env fuel s) := by
  unfold eviction
  rcases env with _ | ⟨fsCap, da⟩
  · exact h
  · dsimp only
    repeat' split
    all_goals first
      | exact h
      | exact accounted_evictionLoop fuel _ _ h

theorem accounted_timerHandler (env : Option (Nat × Nat)) (fuel : Nat) (s : PoolState)
    (h : Accounted s) : Accounted (timerHandler env fuel s) := by
  unfold timerHandler
  split
  · exact h
  · exact accounted_eviction env fuel _ h

end Cache

namespace Cache

theorem accounted_do_open (s : PoolState) (k : String) (h : Accounted s) :
    Accounted (do_open s k) := by
  unfold Accounted sumSizes at h ⊢
  unfold do_open lookupEntry
  rcases hm : mediaLookup s k with _ | n <;> simp only [hm] <;> try dsimp only
  all_goals rcases hf : s.entries.find? (fun e => e.1 == k) with _ | e <;>
    simp only [hf, Option.map_none', Option.map_some'] <;> try dsimp only
  all_goals simp only [List.map_cons, List.sum_cons]
  · omega
  · have hsum := sum_of_find s.entries k e hf
    omega
  · omega
  · have hsum := sum_of_find s.entries k e hf
    omega

theorem accounted_insertFile (s : PoolState) (k : String) (sz : Nat)
    (h : Accounted s) : Accounted (insertFile s k sz) := by
  unfold Accounted sumSizes at h ⊢
  unfold insertFile
  simp only [List.map_cons, List.sum_cons]
  omega

theorem accounted_updateSpace (env : Option (Nat × Nat)) (fuel : Nat) (s : PoolState)
    (k : String) (sz : Nat) (v : LruEntry) (hl : lookupEntry s k = some v)
    (hgrow : v.size ≤ sz) (h : Accounted s) :
    Accounted (updateSpace env fuel s k sz).1 := by
  unfold lookupEntry at hl
  rcases hf : s.entries.find? (fun e => e.1 == k) with _ | e
  · rw [hf] at hl; simp at hl
  · rw [hf] at hl
    simp only [Option.map_some'] at hl
    cases hl
    have hset := sum_of_set s.entries k (⟨e.2.openCount, sz⟩ : LruEntry) e hf
    have hdiff : (if e.2.size < sz then sz - e.2.size else 0) = sz - e.2.size := by
      split <;> omega
    have hs1 : Accounted { s with
        entries := setEntryFirst s.entries k (⟨e.2.openCount, sz⟩ : LruEntry),
        totalUsed := s.totalUsed + ((sz - e.2.size : Nat) : Int) } := by
      unfold Accounted sumSizes at h ⊢
      dsimp only at hset ⊢
      omega
    unfold updateSpace lookupEntry
    rw [hf]
    simp only [Option.map_some']
    dsimp only
    rw [hdiff]
    split
    · exact accounted_timerHandler env fuel _ hs1
    · exact hs1

/-- C2, counterexample: `updateSpace` called with a size smaller than the
entry's recorded size sets the entry's size to the new value but leaves
`totalUsed_` unchanged, so `totalUsed_ = Σ entry.size` is broken at the
quiescent point after the call. -/
theorem pool_accounting_shrink_cex :
    Accounted cexPool ∧ lookupEntry cexPool "a" = some ⟨1, 10⟩ ∧
      (updateSpace none 1 cexPool "a" 5).1.totalUsed = 10 ∧
      sumSizes (updateSpace none 1 cexPool "a" 5).1 = 5 ∧
      ¬ Accounted (updateSpace none 1 cexPool "a" 5).1 := by
  refine ⟨by decide, by decide, by decide, by decide, ?_⟩
  unfold Accounted
  decide

/-- C2, amended: `totalUsed_ = Σ entry.size` is preserved by `do_open`, by
`insertFile`, by `eviction`/`afterFtrucate` and the timer handler, and by
`updateSpace` whenever the new size is at least the entry's current
recorded size (for a smaller new size `updateSpace` shrinks the recorded
size without shrinking `totalUsed_`, so only `totalUsed_ ≥ Σ entry.size`
survives such calls). -/
theorem pool_accounting (s : PoolState) (env : Option (Nat × Nat)) (fuel : Nat)
    (k : String) (sz : Nat) (h : Accounted s) :
    Accounted (do_open s k) ∧
    Accounted (insertFile s k sz) ∧
    (∀ v, lookupEntry s k = some v → v.size ≤ sz →
      Accounted (updateSpace env fuel s k sz).1) ∧
    Accounted (eviction env fuel s) ∧
    Accounted (timerHandler env fuel s) ∧
    Accounted (afterFtrucate s k) :=
  ⟨accounted_do_open s k h, accounted_insertFile s k sz h,
   fun v hv hg => accounted_updateSpace env fuel s k sz v hv hg h,
   accounted_eviction env fuel s h, accounted_timerHandler env fuel s h,
   accounted_afterFtrucate s k h⟩

theorem pool_accounting_witness :
    Accounted cexPool ∧
      (Accounted (do_open cexPool "b") ∧
        Accounted (updateSpace none 1 cexPool "a" 12).1 ∧
        Accounted (eviction (some (100, 50)) 10 cexPool)) :=
  ⟨by decide,
   (pool_accounting cexPool (some (100, 50)) 10 "b" 12 (by decide)).1,
   (pool_accounting cexPool none 1 "a" 12 (by decide)).2.2.1 ⟨1, 10⟩ (by decide)
     (by decide),
   (pool_accounting cexPool (some (100, 50)) 10 "a" 12 (by decide)).2.2.2.1⟩

end Cache

namespace Cache

/-- C6: the `updateSpace(entry, new_size)` contract.  With `d` the positive
part of the size delta (`max(0, new_size - old_size)`, i.e. the truncated
subtraction) and `s1` the pool after the accounting step, `updateSpace`
grows `totalUsed_` by exactly `d` and records the new size; when the new
`totalUsed_` stays below `riskMark_` it returns `s1` with `isFull_` (and
everything else) untouched and no eviction is triggered, and when it
reaches `riskMark_` it sets `isFull_` and runs `forceRecycle` (the guarded
synchronous eviction) before returning. -/
theorem updateSpace_contract (env : Option (Nat × Nat)) (fuel : Nat) (s : PoolState)
    (k : String) (sz : Nat) (v : LruEntry) (hl : lookupEntry s k = some v) :
    ((sz - v.size : Nat) : Int) = max 0 ((sz : Int) - (v.size : Int)) ∧
    lookupEntry { s with
        entries := setEntryFirst s.entries k (⟨v.openCount, sz⟩ : LruEntry),
        totalUsed := s.totalUsed + ((sz - v.size : Nat) : Int) } k =
      some (⟨v.openCount, sz⟩ : LruEntry) ∧
    (¬ (s.riskMark ≤ s.totalUsed + ((sz - v.size : Nat) : Int)) →
      updateSpace env fuel s k sz =
        ({ s with entries := setEntryFirst s.entries k (⟨v.openCount, sz⟩ : LruEntry),
                  totalUsed := s.totalUsed + ((sz - v.size : Nat) : Int) },
         (sz - v.size : Nat))) ∧
    (s.riskMark ≤ s.totalUsed + ((sz - v.size : Nat) : Int) →
      (updateSpace env fuel s k sz).1 =
        forceRecycle env fuel
          { s with entries := setEntryFirst s.entries k (⟨v.openCount, sz⟩ : LruEntry),
                   totalUsed := s.totalUsed + ((sz - v.size : Nat) : Int),
                   isFull := true }) := by
  unfold lookupEntry at hl
  rcases hf : s.entries.find? (fun e => e.1 == k) with _ | e
  · rw [hf] at hl; simp at hl
  · rw [hf] at hl
    simp only [Option.map_some'] at hl
    cases hl
    have hdiff : (if e.2.size < sz then sz - e.2.size else 0) = sz - e.2.size := by
      split <;> omega
    have hset_find := find?_of_set_self s.entries k (⟨e.2.openCount, sz⟩ : LruEntry) e hf
    refine ⟨by omega, ?_, ?_, ?_⟩
    · unfold lookupEntry
      dsimp only
      rw [hset_find]
      rfl
    · intro hrisk
      unfold updateSpace lookupEntry
      rw [hf]
      simp only [Option.map_some']
      dsimp only
      rw [hdiff]
      rw [if_neg hrisk]
    · intro hrisk
      unfold updateSpace lookupEntry
      rw [hf]
      simp only [Option.map_some']
      dsimp only
      rw [hdiff]
      rw [if_pos hrisk]

theorem updateSpace_contract_witness :
    lookupEntry cexPool "a" = some ⟨1, 10⟩ ∧
      (¬ ((1000 : Int) ≤ 10 + ((12 - 10 : Nat) : Int)) ∧
        updateSpace none 1 cexPool "a" 12 =
          ({ cexPool with entries := setEntryFirst cexPool.entries "a" ⟨1, 12⟩,
                          totalUsed := 10 + ((12 - 10 : Nat) : Int) },
           (12 - 10 : Nat))) :=
  ⟨by decide,
   by decide,
   by
     have h := (updateSpace_contract none 1 cexPool "a" 12 ⟨1, 10⟩ (by decide)).2.2.1
       (by decide)
     simpa using h⟩
end Cache

namespace Cache

theorem find_of_getLast_nodup (l : List (String × LruEntry)) (k : String) (v : LruEntry)
    (hnd : (l.map (fun e => e.1)).Nodup) (hlast : l.getLast? = some (k, v)) :
    l.find? (fun e => e.1 == k) = some (k, v) := by
  induction l with
  | nil => simp at hlast
  | cons x rest ih =>
    rcases rest with _ | ⟨y, rest2⟩
    · simp only [List.getLast?_singleton, Option.some_inj] at hlast
      subst hlast
      rw [find?_cons_key, if_pos rfl]
    · have hlast2 : (y :: rest2).getLast? = some (k, v) := hlast
      have hmem : (k, v) ∈ y :: rest2 := List.mem_of_mem_getLast? hlast2
      have hkmem : k ∈ (y :: rest2).map (fun e => e.1) :=
        List.mem_map_of_mem _ hmem
      rw [List.map_cons, List.nodup_cons] at hnd
      have hne : x.1 ≠ k := by
        intro hx
        rw [hx] at hnd
        exact hnd.1 hkmem
      rw [find?_cons_key, if_neg hne]
      exact ih hnd.2 hlast2

theorem mfind_cons_key (x : String × Nat) (l : List (String × Nat)) (k : String) :
    (x :: l).find? (fun e => e.1 == k) =
      if x.1 = k then some x else l.find? (fun e => e.1 == k) := by
  by_cases h : x.1 = k
  · rw [if_pos h, List.find?_cons_of_pos]
    exact beq_iff_eq.mpr h
  · rw [if_neg h, List.find?_cons_of_neg]
    simp [h]

theorem mfind_of_set (l : List (String × Nat)) (k : String) (n : Nat)
    (e : String × Nat) (h : l.find? (fun x => x.1 == k) = some e) :
    (mediaSet l k n).find? (fun x => x.1 == k) = some (k, n) := by
  induction l with
  | nil => simp at h
  | cons x rest ih =>
    rw [mfind_cons_key] at h
    unfold mediaSet
    by_cases hx : x.1 = k
    · rw [if_pos (beq_iff_eq.mpr hx), mfind_cons_key, if_pos rfl]
    · rw [if_neg hx] at h
      have hbeq : (x.1 == k) = false := by simp [hx]
      rw [hbeq]
      simp only [Bool.false_eq_true, if_false]
      rw [mfind_cons_key, if_neg hx]
      exact ih h

theorem mediaSet_map_fst (l : List (String × Nat)) (k : String) (n : Nat) :
    (mediaSet l k n).map (fun e => e.1) = l.map (fun e => e.1) := by
  induction l with
  | nil => rfl
  | cons x rest ih =>
    unfold mediaSet
    by_cases hx : x.1 = k
    · rw [if_pos (beq_iff_eq.mpr hx)]
      simp [hx]
    · have hbeq : (x.1 == k) = false := by simp [hx]
      rw [hbeq]
      simp only [Bool.false_eq_true, if_false, List.map_cons]
      rw [ih]

theorem touch_media (s : PoolState) (k : String) : (touch s k).media = s.media := by
  unfold touch
  rcases lookupEntry s k with _ | v <;> rfl

end Cache

namespace Cache

/-- C1, counterexample: a pool whose single LRU-tail entry `"a"` has
`open_count = 1` and size 10; eviction re-touches it but still truncates
its media file, zeroes its recorded size and subtracts its size from
`totalUsed_`, contradicting the claim that entries with live openers keep
their data. -/
theorem eviction_open_entry_cex :
    lookupEntry cexPool "a" = some ⟨1, 10⟩ ∧ mediaLookup cexPool "a" = some 10 ∧
      cexPool.totalUsed = 10 ∧
      lookupEntry (eviction (some (100, 50)) 10 cexPool) "a" = some ⟨1, 0⟩ ∧
      mediaLookup (eviction (some (100, 50)) 10 cexPool) "a" = some 0 ∧
      (eviction (some (100, 50)) 10 cexPool).totalUsed = 0 := by
  decide

/-- C1, amended: when the LRU tail entry has `open_count > 0` the eviction
iteration re-touches it to the LRU front and keeps it in the index (no
entry is removed and the media file is not unlinked); if its size is 0
nothing else happens, but if its size is positive its media file is
truncated to 0, its recorded size is zeroed and `totalUsed_` is reduced by
its size, exactly as for unpinned entries — only the unlink-and-erase step
is reserved for entries with `open_count == 0`. -/
theorem eviction_open_entry (s : PoolState) (k : String) (v : LruEntry) (msz : Nat)
    (hnd : (s.entries.map (fun e => e.1)).Nodup)
    (hlast : s.entries.getLast? = some (k, v))
    (hoc : v.openCount ≠ 0)
    (hm : mediaLookup s k = some msz) :
    (evictionIter s).1.entries.head? = some (k, ⟨v.openCount, 0⟩) ∧
    (evictionIter s).1.entries.length = s.entries.length ∧
    (evictionIter s).1.totalUsed =
      (if v.size = 0 then s.totalUsed
       else if s.totalUsed - (v.size : Int) < 0 then 0
            else s.totalUsed - (v.size : Int)) ∧
    mediaLookup (evictionIter s).1 k = some (if v.size = 0 then msz else 0) ∧
    (evictionIter s).1.media.map (fun e => e.1) = s.media.map (fun e => e.1) ∧
    (evictionIter s).2 = (if v.size = 0 then 0 else (v.size : Int)) := by
  have hfind : s.entries.find? (fun e => e.1 == k) = some (k, v) :=
    find_of_getLast_nodup s.entries k v hnd hlast
  have hlk : lookupEntry s k = some v := by
    unfold lookupEntry
    rw [hfind]
    rfl
  have htouch : touch s k = { s with entries := (k, v) :: eraseKeyFirst s.entries k } := by
    unfold touch
    rw [hlk]
  have hlen := erase_length_of_find s.entries k (k, v) hfind
  unfold evictionIter
  rw [hlast]
  dsimp only
  simp only [if_neg hoc]
  by_cases hsz : v.size = 0
  · rw [if_pos hsz]
    rcases v with ⟨oc, szv⟩
    dsimp only at hsz
    subst hsz
    rw [htouch]
    refine ⟨rfl, ?_, rfl, ?_, rfl, rfl⟩
    · dsimp only
      simp only [List.length_cons]
      omega
    · unfold mediaLookup at hm ⊢
      simpa using hm
  · simp only [if_neg hsz]
    have hmtouch : mediaLookup (touch s k) k = some msz := by
      unfold mediaLookup
      rw [touch_media]
      exact hm
    rw [hmtouch]
    unfold mediaLookup at hm
    rcases hmf : s.media.find? (fun e => e.1 == k) with _ | me
    · rw [hmf] at hm; simp at hm
    · have hset := mfind_of_set s.media k 0 me hmf
      have haft : afterFtrucate { touch s k with media := mediaSet (touch s k).media k 0 } k =
          { s with entries := (k, ⟨v.openCount, 0⟩) :: eraseKeyFirst s.entries k,
                   media := mediaSet s.media k 0,
                   totalUsed := if s.totalUsed - (v.size : Int) < 0 then 0
                                else s.totalUsed - (v.size : Int) } := by
        unfold afterFtrucate
        have hlk2 : lookupEntry { touch s k with
            media := mediaSet (touch s k).media k 0 } k = some v := by
          unfold lookupEntry
          rw [htouch]
          dsimp only
          rw [find?_cons_key, if_pos rfl]
          rfl
        rw [hlk2]
        dsimp only
        rw [if_neg hoc]
        rw [htouch]
        dsimp only
        unfold setEntryFirst
        rw [if_pos (beq_iff_eq.mpr rfl)]
      rw [haft]
      refine ⟨rfl, ?_, rfl, ?_, ?_, trivial⟩
      · simp only [List.length_cons]
        omega
      · unfold mediaLookup
        show Option.map _ ((mediaSet s.media k 0).find? (fun e => e.1 == k)) = _
        rw [hset]
        rfl
      · show (mediaSet s.media k 0).map (fun e => e.1) = _
        exact mediaSet_map_fst s.media k 0

theorem eviction_open_entry_witness :
    ((cexPool.entries.map (fun e => e.1)).Nodup ∧
      cexPool.entries.getLast? = some ("a", ⟨1, 10⟩) ∧
      (1 : Nat) ≠ 0 ∧ mediaLookup cexPool "a" = some 10) ∧
    ((evictionIter cexPool).1.entries.head? = some ("a", ⟨1, 0⟩) ∧
      (evictionIter cexPool).1.totalUsed = 0) := by
  refine ⟨⟨by decide, by decide, by decide, by decide⟩, ?_, ?_⟩
  · exact (eviction_open_entry cexPool "a" ⟨1, 10⟩ 10 (by decide) (by decide)
      (by decide) (by decide)).1
  · have h := (eviction_open_entry cexPool "a" ⟨1, 10⟩ 10 (by decide) (by decide)
      (by decide) (by decide)).2.2.1
    simpa using h

end Cache

namespace LSMT

theorem lookupAt_nil (p : Nat) : lookupAt [] p = none := rfl

theorem lookupAt_cons (x : SegmentMapping) (l : List SegmentMapping) (p : Nat) :
    lookupAt (x :: l) p = if covers x p then some x else lookupAt l p := by
  unfold lookupAt
  by_cases h : covers x p
  · rw [if_pos h, List.find?_cons_of_pos _ (by simpa using h)]
  · rw [if_neg h, List.find?_cons_of_neg _ (by simpa using h)]

theorem readAt_nil (p : Nat) : readAt [] p = none := rfl

theorem readAt_cons (x : SegmentMapping) (l : List SegmentMapping) (p : Nat) :
    readAt (x :: l) p = if covers x p then some (valueAt x p) else readAt l p := by
  unfold readAt
  rw [lookupAt_cons]
  by_cases h : covers x p
  · rw [if_pos h, if_pos h, Option.map_some']
  · rw [if_neg h, if_neg h]

theorem insert0_self_mem (m : SegmentMapping) : ∀ l, m ∈ insert0 m l := by
  intro l
  induction l with
  | nil => exact List.mem_singleton.mpr rfl
  | cons e rest ih =>
    unfold insert0
    split
    · exact List.mem_cons_of_mem e ih
    · split
      · exact List.mem_cons_self m _
      · apply List.mem_append_right
        split
        · exact List.mem_cons_self m _
        · exact ih

theorem insert0_mem_split (m x : SegmentMapping) :
    ∀ l, x ∈ insert0 m l →
      x = m ∨ ∃ e ∈ l, e.offset ≤ x.offset ∧
        x.offset + x.length ≤ e.offset + e.length := by
  intro l
  induction l with
  | nil =>
    intro hx
    left
    unfold insert0 at hx
    simpa using hx
  | cons e rest ih =>
    intro hx
    unfold insert0 at hx
    split at hx
    · rcases List.mem_cons.mp hx with hx | hx
      · right
        exact ⟨e, List.mem_cons_self e rest, by rw [hx], by rw [hx]⟩
      · rcases ih hx with h | ⟨e2, he2, h1, h2⟩
        · exact Or.inl h
        · exact Or.inr ⟨e2, List.mem_cons_of_mem e he2, h1, h2⟩
    · split at hx
      · rcases List.mem_cons.mp hx with hx | hx
        · exact Or.inl hx
        · rcases List.mem_cons.mp hx with hx | hx
          · exact Or.inr ⟨e, List.mem_cons_self e rest, by rw [hx], by rw [hx]⟩
          · exact Or.inr ⟨x, List.mem_cons_of_mem e hx, le_refl _, le_refl _⟩
      · rcases List.mem_append.mp hx with hx | hx
        · right
          split at hx
          · simp at hx
          · simp only [List.mem_singleton] at hx
            subst hx
            refine ⟨e, List.mem_cons_self e rest, ?_, ?_⟩ <;>
              dsimp only [leftPiece] <;> omega
        · split at hx
          · rcases List.mem_cons.mp hx with hx | hx
            · exact Or.inl hx
            · rcases List.mem_cons.mp hx with hx | hx
              · right
                subst hx
                refine ⟨e, List.mem_cons_self e rest, ?_, ?_⟩ <;>
                  dsimp only [rightPiece] <;> omega
              · exact Or.inr ⟨x, List.mem_cons_of_mem e hx, le_refl _, le_refl _⟩
          · rcases ih hx with h | ⟨e2, he2, h1, h2⟩
            · exact Or.inl h
            · exact Or.inr ⟨e2, List.mem_cons_of_mem e he2, h1, h2⟩

end LSMT

namespace LSMT

theorem insert0_pairwise (m : SegmentMapping) : ∀ l, SortedNO l → SortedNO (insert0 m l) := by
  intro l
  induction l with
  | nil =>
    intro _
    unfold insert0 SortedNO
    exact List.pairwise_singleton _ _
  | cons e rest ih =>
    intro hs
    unfold SortedNO at hs ⊢
    rw [List.pairwise_cons] at hs
    unfold insert0
    by_cases hb1 : e.offset + e.length ≤ m.offset
    · rw [if_pos hb1, List.pairwise_cons]
      constructor
      · intro b hb
        rcases insert0_mem_split m b rest hb with hbm | ⟨e2, he2, h1, h2⟩
        · subst hbm
          unfold before
          omega
        · have he := hs.1 e2 he2
          unfold before at he ⊢
          omega
      · exact ih hs.2
    · rw [if_neg hb1]
      by_cases hb2 : m.offset + m.length ≤ e.offset
      · rw [if_pos hb2, List.pairwise_cons]
        constructor
        · intro b hb
          rcases List.mem_cons.mp hb with hbe | hbr
          · subst hbe
            unfold before
            omega
          · have he := hs.1 b hbr
            unfold before at he ⊢
            omega
        · rw [List.pairwise_cons]
          exact hs
      · rw [if_neg hb2]
        by_cases hb3 : m.offset + m.length < e.offset + e.length
        · rw [if_pos hb3]
          by_cases hL : m.offset ≤ e.offset
          · rw [if_pos hL, List.nil_append, List.pairwise_cons]
            constructor
            · intro b hb
              rcases List.mem_cons.mp hb with hbe | hbr
              · subst hbe
                unfold before rightPiece
                dsimp only
                omega
              · have he := hs.1 b hbr
                unfold before at he ⊢
                omega
            · rw [List.pairwise_cons]
              constructor
              · intro b hbr
                have he := hs.1 b hbr
                unfold before at he ⊢
                dsimp only [rightPiece]
                omega
              · exact hs.2
          · rw [if_neg hL, List.singleton_append, List.pairwise_cons]
            constructor
            · intro b hb
              rcases List.mem_cons.mp hb with hbe | hb
              · subst hbe
                unfold before leftPiece
                dsimp only
                omega
              · rcases List.mem_cons.mp hb with hbe | hbr
                · subst hbe
                  unfold before leftPiece rightPiece
                  dsimp only
                  omega
                · have he := hs.1 b hbr
                  unfold before at he ⊢
                  dsimp only [leftPiece]
                  omega
            · rw [List.pairwise_cons]
              constructor
              · intro b hb
                rcases List.mem_cons.mp hb with hbe | hbr
                · subst hbe
                  unfold before rightPiece
                  dsimp only
                  omega
                · have he := hs.1 b hbr
                  unfold before at he ⊢
                  omega
              · rw [List.pairwise_cons]
                constructor
                · intro b hbr
                  have he := hs.1 b hbr
                  unfold before at he ⊢
                  dsimp only [rightPiece]
                  omega
                · exact hs.2
        · rw [if_neg hb3]
          by_cases hL : m.offset ≤ e.offset
          · rw [if_pos hL, List.nil_append]
            exact ih hs.2
          · rw [if_neg hL, List.singleton_append, List.pairwise_cons]
            constructor
            · intro b hb
              rcases insert0_mem_split m b rest hb with hbm | ⟨e2, he2, h1, h2⟩
              · subst hbm
                unfold before leftPiece
                dsimp only
                omega
              · have he := hs.1 e2 he2
                unfold before at he ⊢
                dsimp only [leftPiece]
                omega
            · exact ih hs.2

theorem buildIndex0_sorted_from (ms : List SegmentMapping) :
    ∀ acc, SortedNO acc → SortedNO (ms.foldl (fun l m => insert0 m l) acc) := by
  induction ms with
  | nil => intro acc h; exact h
  | cons m rest ih =>
    intro acc h
    rw [List.foldl_cons]
    exact ih _ (insert0_pairwise m acc h)

end LSMT

namespace LSMT

theorem valueAt_leftPiece (m e : SegmentMapping) (p : Nat) :
    valueAt (leftPiece m e) p = valueAt e p := rfl

theorem valueAt_rightPiece (e m : SegmentMapping) (p : Nat)
    (h1 : e.offset ≤ m.offset + m.length) (h2 : m.offset + m.length ≤ p) :
    valueAt (rightPiece m e) p = valueAt e p := by
  unfold valueAt rightPiece
  dsimp only
  cases hz : e.zeroed
  · simp only [Bool.false_eq_true, if_false, Prod.mk.injEq, and_true, and_self]
    omega
  · simp only [if_true]

theorem readAt_insert0 (m : SegmentMapping) (p : Nat) :
    ∀ l, readAt (insert0 m l) p =
      if covers m p then some (valueAt m p) else readAt l p := by
  intro l
  induction l with
  | nil =>
    unfold insert0
    rw [readAt_cons, readAt_nil]
  | cons e rest ih =>
    unfold insert0
    by_cases hb1 : e.offset + e.length ≤ m.offset
    · rw [if_pos hb1, readAt_cons, readAt_cons]
      by_cases hce : covers e p
      · have hnm : ¬ covers m p := by
          unfold covers at hce ⊢
          omega
        rw [if_pos hce, if_neg hnm, if_pos hce]
      · rw [if_neg hce, if_neg hce, ih]
    · rw [if_neg hb1]
      by_cases hb2 : m.offset + m.length ≤ e.offset
      · rw [if_pos hb2, readAt_cons]
      · rw [if_neg hb2]
        by_cases hb3 : m.offset + m.length < e.offset + e.length
        · rw [if_pos hb3]
          by_cases hL : m.offset ≤ e.offset
          · rw [if_pos hL, List.nil_append, readAt_cons, readAt_cons, readAt_cons]
            by_cases hcm : covers m p
            · rw [if_pos hcm, if_pos hcm]
            · rw [if_neg hcm, if_neg hcm]
              by_cases hce : covers e p
              · have hcr : covers (rightPiece m e) p := by
                  unfold covers at hce hcm ⊢
                  unfold rightPiece
                  dsimp only
                  omega
                rw [if_pos hcr, if_pos hce,
                  valueAt_rightPiece e m p (by unfold covers at hce; omega)
                    (by unfold covers at hce hcm; omega)]
              · have hnr : ¬ covers (rightPiece m e) p := by
                  unfold covers at hce hcm ⊢
                  unfold rightPiece
                  dsimp only
                  omega
                rw [if_neg hnr, if_neg hce]
          · rw [if_neg hL, List.singleton_append, readAt_cons, readAt_cons,
              readAt_cons, readAt_cons]
            by_cases hcm : covers m p
            · have hnl : ¬ covers (leftPiece m e) p := by
                unfold covers at hcm ⊢
                unfold leftPiece
                dsimp only
                omega
              rw [if_neg hnl, if_pos hcm, if_pos hcm]
            · rw [if_neg hcm]
              by_cases hce : covers e p
              · by_cases hpl : p < m.offset
                · have hcl : covers (leftPiece m e) p := by
                    unfold covers at hce ⊢
                    unfold leftPiece
                    dsimp only
                    omega
                  rw [if_pos hcl, if_neg hcm, if_pos hce, valueAt_leftPiece]
                · have hnl : ¬ covers (leftPiece m e) p := by
                    unfold covers at hce ⊢
                    unfold leftPiece
                    dsimp only
                    omega
                  have hcr : covers (rightPiece m e) p := by
                    unfold covers at hce hcm ⊢
                    unfold rightPiece
                    dsimp only
                    omega
                  rw [if_neg hnl, if_neg hcm, if_pos hcr, if_pos hce,
                    valueAt_rightPiece e m p (by unfold covers at hce; omega)
                      (by unfold covers at hce hcm; omega)]
              · have hnl : ¬ covers (leftPiece m e) p := by
                  unfold covers at hce ⊢
                  unfold leftPiece
                  dsimp only
                  omega
                have hnr : ¬ covers (rightPiece m e) p := by
                  unfold covers at hce hcm ⊢
                  unfold rightPiece
                  dsimp only
                  omega
                rw [if_neg hnl, if_neg hcm, if_neg hnr, if_neg hce]
        · rw [if_neg hb3]
          by_cases hL : m.offset ≤ e.offset
          · rw [if_pos hL, List.nil_append, ih, readAt_cons]
            by_cases hcm : covers m p
            · rw [if_pos hcm, if_pos hcm]
            · have hne : ¬ covers e p := by
                unfold covers at hcm ⊢
                omega
              rw [if_neg hcm, if_neg hcm, if_neg hne]
          · rw [if_neg hL, List.singleton_append, readAt_cons, readAt_cons]
            by_cases hcl : covers (leftPiece m e) p
            · have hnm : ¬ covers m p := by
                unfold covers at hcl ⊢
                unfold leftPiece at hcl
                dsimp only at hcl
                omega
              have hce : covers e p := by
                unfold covers at hcl ⊢
                unfold leftPiece at hcl
                dsimp only at hcl
                omega
              rw [if_pos hcl, if_neg hnm, if_pos hce, valueAt_leftPiece]
            · rw [if_neg hcl, ih]
              by_cases hcm : covers m p
              · rw [if_pos hcm, if_pos hcm]
              · have hne : ¬ covers e p := by
                  unfold covers at hcl hcm ⊢
                  unfold leftPiece at hcl
                  dsimp only at hcl
                  omega
                rw [if_neg hcm, if_neg hcm, if_neg hne]

end LSMT

namespace LSMT

/-- C4: after any sequence of `Index0::insert` calls starting from the empty
index, the entries are strictly non-overlapping in key order
(`a.end() ≤ b.offset` for entries in list order); each `insert` keeps the new
mapping present verbatim, and at every point the new mapping wins over the
previous content while points it does not cover read exactly as before
(existing overlapped entries are split or truncated, never consulted on the
overwritten sub-range). -/
theorem index0_insert_invariant :
    (∀ ms : List SegmentMapping, SortedNO (buildIndex0 ms)) ∧
    (∀ (m : SegmentMapping) (l : List SegmentMapping), m ∈ insert0 m l) ∧
    (∀ (m : SegmentMapping) (l : List SegmentMapping) (p : Nat),
      readAt (insert0 m l) p =
        if covers m p then some (valueAt m p) else readAt l p) := by
  refine ⟨?_, fun m l => insert0_self_mem m l, fun m l p => readAt_insert0 m p l⟩
  intro ms
  unfold buildIndex0
  exact buildIndex0_sorted_from ms [] List.Pairwise.nil

/-- The model reproduces the expected dump of `TEST(Index0, insert)`. -/
theorem buildIndex0_matches_test_dump :
    buildIndex0 insertTestInput = insertTestExpected := by decide

/-- The model reproduces the expected `block_count()` of `TEST(Index0, insert)`. -/
theorem blockCount_matches_test_dump :
    blockCount (buildIndex0 insertTestInput) = 225 := by decide

end LSMT

namespace LSMT

theorem lookupAt_eq_none (L : List SegmentMapping) (p : Nat) :
    lookupAt L p = none ↔ ∀ m ∈ L, ¬ covers m p := by
  unfold lookupAt
  rw [List.find?_eq_none]
  simp

theorem lookupAt_covers (L : List SegmentMapping) (p : Nat) (m : SegmentMapping)
    (h : lookupAt L p = some m) : covers m p := by
  unfold lookupAt at h
  have := List.find?_some h
  simpa using this

theorem mergedAtFrom_eq_none (p : Nat) :
    ∀ (Ls : List (List SegmentMapping)) (b : Nat),
      mergedAtFrom p b Ls = none ↔ ∀ L ∈ Ls, lookupAt L p = none := by
  intro Ls
  induction Ls with
  | nil =>
    intro b
    simp [mergedAtFrom]
  | cons L Ls ih =>
    intro b
    unfold mergedAtFrom
    cases h : lookupAt L p with
    | none => simp [h, ih (b + 1)]
    | some m => simp [h]

theorem mergedAtFrom_spec (p : Nat) :
    ∀ (Ls : List (List SegmentMapping)) (b j : Nat) (m : SegmentMapping),
      mergedAtFrom p b Ls = some (j, m) →
      b ≤ j ∧ j - b < Ls.length ∧
      (∃ L, Ls[j - b]? = some L ∧ lookupAt L p = some m) ∧
      (∀ k, k < j - b → ∀ L, Ls[k]? = some L → lookupAt L p = none) := by
  intro Ls
  induction Ls with
  | nil =>
    intro b j m h
    simp [mergedAtFrom] at h
  | cons L Ls ih =>
    intro b j m h
    unfold mergedAtFrom at h
    cases hl : lookupAt L p with
    | some m0 =>
      rw [hl] at h
      simp only [Option.some.injEq, Prod.mk.injEq] at h
      obtain ⟨hb, hm⟩ := h
      subst hb
      subst hm
      refine ⟨le_refl _, by simp, ⟨L, by simp, hl⟩, ?_⟩
      intro k hk
      omega
    | none =>
      rw [hl] at h
      obtain ⟨h1, h2, ⟨L2, hg, hl2⟩, h4⟩ := ih (b + 1) j m h
      have hjb : j - b = (j - (b + 1)) + 1 := by omega
      refine ⟨by omega, by simp; omega, ⟨L2, ?_, hl2⟩, ?_⟩
      · rw [hjb, List.getElem?_cons_succ]
        exact hg
      · intro k hk L' hL'
        cases k with
        | zero =>
          rw [List.getElem?_cons_zero] at hL'
          cases hL'
          exact hl
        | succ k =>
          rw [List.getElem?_cons_succ] at hL'
          exact h4 k (by omega) L' hL'

theorem mergedAt_covers (layers : List (List SegmentMapping)) (q i : Nat)
    (m : SegmentMapping) (h : mergedAt layers q = some (i, m)) : covers m q := by
  unfold mergedAt at h
  obtain ⟨-, -, ⟨L, -, hl⟩, -⟩ := mergedAtFrom_spec q layers 0 i m h
  exact lookupAt_covers L q m hl

theorem runLen_spec (layers : List (List SegmentMapping))
    (im : Nat × SegmentMapping) (fin : Nat) :
    ∀ (fuel q k : Nat), k < runLen layers im q fin fuel →
      q + k < fin ∧ mergedAt layers (q + k) = some im := by
  intro fuel
  induction fuel with
  | zero =>
    intro q k h
    simp [runLen] at h
  | succ fuel ih =>
    intro q k h
    unfold runLen at h
    split at h
    · next hc =>
      cases k with
      | zero =>
        exact ⟨by omega, by simpa using hc.2⟩
      | succ k =>
        have heq : q + (k + 1) = (q + 1) + k := by omega
        rw [heq]
        exact ih (q + 1) k (by omega)
    · omega

theorem nextStart_gt (layers : List (List SegmentMapping)) (a q : Nat)
    (h : nextStart layers a = some q) : a < q := by
  unfold nextStart at h
  have hq := (List.min?_eq_some_iff'.mp h).1
  rw [List.mem_filter] at hq
  simpa using hq.2

theorem nextStart_min (layers : List (List SegmentMapping)) (a q : Nat)
    (h : nextStart layers a = some q) :
    ∀ o, o ∈ layers.flatMap (fun L => L.map fun m => m.offset) → a < o → q ≤ o := by
  unfold nextStart at h
  have hmin := (List.min?_eq_some_iff'.mp h).2
  intro o ho hao
  exact hmin o (List.mem_filter.mpr ⟨ho, by simpa using hao⟩)

theorem nextStart_none (layers : List (List SegmentMapping)) (a : Nat)
    (h : nextStart layers a = none) :
    ∀ o ∈ layers.flatMap (fun L => L.map fun m => m.offset), ¬ a < o := by
  unfold nextStart at h
  rw [List.min?_eq_none_iff] at h
  intro o ho hao
  have hmem : o ∈ ((layers.flatMap (fun L => L.map fun m => m.offset)).filter
      (fun o => a < o)) := List.mem_filter.mpr ⟨ho, by simpa using hao⟩
  rw [h] at hmem
  simp at hmem

theorem mergedAt_none_of_gap (layers : List (List SegmentMapping)) (a p : Nat)
    (ha : mergedAt layers a = none) (hap : a ≤ p)
    (hq : ∀ o, o ∈ layers.flatMap (fun L => L.map fun m => m.offset) →
      a < o → p < o) :
    mergedAt layers p = none := by
  unfold mergedAt at ha ⊢
  rw [mergedAtFrom_eq_none] at ha ⊢
  intro L hL
  rw [lookupAt_eq_none]
  intro m hm hc
  have hna : ¬ covers m a := (lookupAt_eq_none L a).mp (ha L hL) m hm
  unfold covers at hc hna
  by_cases hma : m.offset ≤ a
  · omega
  · have ho : m.offset ∈ layers.flatMap (fun L => L.map fun m => m.offset) :=
      List.mem_flatMap.mpr ⟨L, hL, List.mem_map.mpr ⟨m, hm, rfl⟩⟩
    have := hq m.offset ho (by omega)
    omega

theorem readAt_eq_none_of_no_cover (l : List SegmentMapping) (p : Nat)
    (h : ∀ x ∈ l, ¬ covers x p) : readAt l p = none := by
  unfold readAt
  rw [(lookupAt_eq_none l p).mpr h]
  rfl

end LSMT

namespace LSMT

theorem comboWalk_offset_ge (layers : List (List SegmentMapping)) (fin : Nat) :
    ∀ fuel a, ∀ x ∈ comboWalk layers a fin fuel, a ≤ x.offset := by
  intro fuel
  induction fuel with
  | zero =>
    intro a x hx
    simp [comboWalk] at hx
  | succ fuel ih =>
    intro a x hx
    unfold comboWalk at hx
    split at hx
    · split at hx
      · split at hx
        · simp at hx
        · next q hq =>
          have h1 := ih q x hx
          have h2 := nextStart_gt layers a q hq
          omega
      · next i m hm =>
        rcases List.mem_cons.mp hx with hx | hx
        · subst hx
          dsimp only
          omega
        · have := ih (a + (1 + runLen layers (i, m) (a + 1) fin fuel)) x hx
          omega
    · simp at hx

theorem readAt_comboWalk (layers : List (List SegmentMapping)) (fin : Nat) :
    ∀ fuel a p, a ≤ p → p < fin → fin ≤ a + fuel →
      readAt (comboWalk layers a fin fuel) p =
        (mergedAt layers p).map
          (fun im => ((valueAt im.2 p).1, im.2.zeroed, tagOf layers.length im.1)) := by
  intro fuel
  induction fuel with
  | zero =>
    intro a p h1 h2 h3
    omega
  | succ fuel ih =>
    intro a p h1 h2 h3
    unfold comboWalk
    rw [if_pos (by omega : a < fin)]
    cases hm : mergedAt layers a with
    | none =>
      cases hq : nextStart layers a with
      | none =>
        dsimp only
        rw [readAt_nil]
        have hnone : mergedAt layers p = none := by
          apply mergedAt_none_of_gap layers a p hm h1
          intro o ho hao
          exact absurd hao (nextStart_none layers a hq o ho)
        rw [hnone]
        rfl
      | some q =>
        dsimp only
        by_cases hpq : p < q
        · have hnone : mergedAt layers p = none := by
            apply mergedAt_none_of_gap layers a p hm h1
            intro o ho hao
            exact lt_of_lt_of_le hpq (nextStart_min layers a q hq o ho hao)
          rw [hnone]
          rw [readAt_eq_none_of_no_cover]
          · rfl
          · intro x hx
            have := comboWalk_offset_ge layers fin fuel q x hx
            unfold covers
            omega
        · have haq := nextStart_gt layers a q hq
          exact ih q p (by omega) h2 (by omega)
    | some im =>
      obtain ⟨i, m⟩ := im
      dsimp only
      rw [readAt_cons]
      have hcm : covers m a := mergedAt_covers layers a i m hm
      by_cases hpr : p < a + (1 + runLen layers (i, m) (a + 1) fin fuel)
      · have hcov : covers { offset := a, length := 1 + runLen layers (i, m) (a + 1) fin fuel, moffset := if m.zeroed then m.moffset else m.moffset + (a - m.offset), zeroed := m.zeroed, tag := tagOf layers.length i } p := by
          unfold covers
          dsimp only
          omega
        rw [if_pos hcov]
        have hmp : mergedAt layers p = some (i, m) := by
          rcases Nat.eq_or_lt_of_le h1 with he | hlt
          · rw [← he]
            exact hm
          · have hk := runLen_spec layers (i, m) fin fuel (a + 1) (p - a - 1)
              (by omega)
            have heq : (a + 1) + (p - a - 1) = p := by omega
            rw [heq] at hk
            exact hk.2
        rw [hmp, Option.map_some']
        unfold covers at hcm
        unfold valueAt
        dsimp only
        cases hz : m.zeroed
        · simp only [Option.some.injEq, Bool.false_eq_true, if_false,
            Prod.mk.injEq, and_true, and_self]
          omega
        · simp only [if_true]
      · have hncov : ¬ covers { offset := a, length := 1 + runLen layers (i, m) (a + 1) fin fuel, moffset := if m.zeroed then m.moffset else m.moffset + (a - m.offset), zeroed := m.zeroed, tag := tagOf layers.length i } p := by
          unfold covers
          dsimp only
          omega
        rw [if_neg hncov]
        exact ih (a + (1 + runLen layers (i, m) (a + 1) fin fuel)) p (by omega)
          h2 (by omega)

end LSMT

namespace LSMT

/-- C3: merge priority holds pointwise — at every point of the looked-up
segment the combo view returns the content (physical location and zeroed
flag) of the mapping from the smallest-index (topmost) layer covering the
point, and `mergedAt` indeed picks the smallest covering layer index; but
the tag carried by the returned mapping is `tagOf`, which numbers the top
layer `K-1` (and the lower layers `0 .. K-2` top-to-bottom), not `0` as the
claim states. -/
theorem combo_topmost_wins (layers : List (List SegmentMapping)) (s : Segment)
    (p : Nat) (h1 : s.offset ≤ p) (h2 : p < s.offset + s.length) :
    (∀ i m, mergedAt layers p = some (i, m) →
      (∃ L, layers[i]? = some L ∧ lookupAt L p = some m) ∧
      ∀ j, j < i → ∀ L, layers[j]? = some L → lookupAt L p = none) ∧
    readAt (comboLookup layers s) p =
      (mergedAt layers p).map
        (fun im => ((valueAt im.2 p).1, im.2.zeroed, tagOf layers.length im.1)) := by
  constructor
  · intro i m hm
    obtain ⟨hb, hlen, ⟨L, hg, hl⟩, hmin⟩ := mergedAtFrom_spec p layers 0 i m hm
    simp only [Nat.sub_zero] at hg hmin
    exact ⟨⟨L, hg, hl⟩, fun j hj L' hL' => hmin j hj L' hL'⟩
  · unfold comboLookup
    exact readAt_comboWalk layers (s.offset + s.length) s.length s.offset p h1
      h2 (by omega)

theorem combo_topmost_wins_witness :
    ((Segment.mk 0 200).offset ≤ 5 ∧
      5 < (Segment.mk 0 200).offset + (Segment.mk 0 200).length) ∧
    ((∀ i m, mergedAt [mergeTop, mergeL1] 5 = some (i, m) →
      (∃ L, [mergeTop, mergeL1][i]? = some L ∧ lookupAt L 5 = some m) ∧
      ∀ j, j < i → ∀ L, [mergeTop, mergeL1][j]? = some L →
        lookupAt L 5 = none) ∧
    readAt (comboLookup [mergeTop, mergeL1] (Segment.mk 0 200)) 5 =
      (mergedAt [mergeTop, mergeL1] 5).map
        (fun im => ((valueAt im.2 5).1, im.2.zeroed,
          tagOf [mergeTop, mergeL1].length im.1))) :=
  ⟨⟨by decide, by decide⟩,
    combo_topmost_wins [mergeTop, mergeL1] (Segment.mk 0 200) 5 (by decide)
      (by decide)⟩

/-- C3 counterexample to the claimed tag numbering: at point 5 of the
two-layer test view the returned mapping is drawn from the top layer
(layer index 0), yet it carries tag `1 = K - 1`, not `0`. -/
theorem combo_tag_top_not_zero_cex :
    mergedAt [mergeTop, mergeL1] 5 = some (0, ⟨5, 5, 0, false, 0⟩) ∧
    readAt (comboLookup [mergeTop, mergeL1] (Segment.mk 0 200)) 5 =
      some (0, false, 1) ∧ (1 : Nat) ≠ 0 := by
  decide

end LSMT

namespace LSMT

set_option maxRecDepth 40000 in
/-- The model reproduces the expected two-layer result of
`TEST(Index, merge)` over `{0, 10000}`. -/
theorem comboLookup_matches_merge2 :
    comboLookup [mergeTop, mergeL1] (Segment.mk 0 10000) = mergeExpected2 := by
  decide

set_option maxRecDepth 40000 in
/-- The model reproduces the expected four-layer result of
`TEST(Index, merge)` over `{0, 10000}`. -/
theorem comboLookup_matches_merge4 :
    comboLookup [mergeTop, mergeL1, mergeL2, mergeL3] (Segment.mk 0 10000) =
      mergeExpected4 := by
  decide

end LSMT
